import Mathlib

/-!
Verification development for the trackaddress repository.

Shallow embedding of the two source files:
  * `src/convert_transactions.py` — decimal parsing/formatting and the
    per-transaction aggregation pipeline (`summarize_changes`, `iter_rows`);
  * `src/solscan_fetch.py` — signature pagination (`fetch_signatures`),
    the bounded retry fetcher (`fetch_transactions_with_retries`) and the
    per-address orchestration loop (`fetch_all_transactions`).

Modelling conventions:
  * Python `Decimal` values are modelled as `ℚ`.  The amounts handled by the
    program fit comfortably inside the 28-significant-digit context the source
    sets, so context rounding never fires and rational arithmetic is exact.
    The special `Decimal` literals (`NaN`, `Infinity`), underscore separators
    and surrounding whitespace are outside the modelled literal grammar.
  * Python values that may be an int, a string or `None` (the `amount`,
    `tokenAmount` and `fee` fields read with `.get`) are modelled by `PyVal`;
    a `.get` on a possibly-missing key is an `Option`.
  * Code that can raise (`int(...)` on an unparsable string) returns
    `Except Unit`; an uncaught Python exception is `.error ()`.
  * The HTTP transport is an oracle function handed to the fetch code: the
    raw `result` list of a signatures response, and the transaction-batch
    response as a function of the requested signatures.  Responses are taken
    to be well-formed lists (the source raises `RuntimeError` otherwise,
    before any of the logic modelled here runs).
-/

/-! ### Python value scaffolding -/

/-- A JSON-ish Python value as it reaches the numeric fields of the records:
an int, a string, or `None`. -/
inductive PyVal where
  | vInt : Int → PyVal
  | vStr : String → PyVal
  | vNone : PyVal
deriving DecidableEq

/-- Python truthiness of a `PyVal` (`0`, `""` and `None` are falsy). -/
def truthy : PyVal → Bool
  | .vInt n => n != 0
  | .vStr s => s != ""
  | .vNone => false

/-- `x or 0` applied to the result of `d.get(key)`: a missing key or a falsy
value is replaced by the int `0`. -/
def pyOr0 : Option PyVal → PyVal
  | none => .vInt 0
  | some v => if truthy v then v else .vInt 0

/-- Numeric value of a big-endian list of decimal digit characters. -/
def charsToNat (l : List Char) : Nat :=
  l.foldl (fun a c => 10 * a + (c.toNat - 48)) 0

/-- Strip one optional leading sign, reporting whether it was `-`. -/
def splitSign : List Char → Bool × List Char
  | [] => (false, [])
  | c :: rest =>
    if c = '-' then (true, rest)
    else if c = '+' then (false, rest)
    else (false, c :: rest)

/-- ASCII whitespace, as stripped from the ends of a numeric string by
Python's `int()` and `Decimal()` constructors. -/
def isPyWs (c : Char) : Bool :=
  c = ' ' || c = '\t' || c = '\n' || c = '\r' || c.toNat = 11 || c.toNat = 12

/-- `s.strip()`: drop leading and trailing whitespace. -/
def stripWs (l : List Char) : List Char :=
  ((l.dropWhile isPyWs).reverse.dropWhile isPyWs).reverse

/-- After the first digit, `int()` accepts further digits with single
underscore separators placed strictly between digits. -/
def intDigitsTail : List Char → Bool
  | [] => true
  | ['_'] => false
  | '_' :: d :: r => d.isDigit && intDigitsTail r
  | c :: r => c.isDigit && intDigitsTail r

/-- `int(s)` on a string: surrounding whitespace is stripped, then an
optional sign followed by digits with single underscore separators strictly
between digits. -/
def parsePyInt (s : String) : Option Int :=
  let p := splitSign (stripWs s.data)
  match p.2 with
  | [] => none
  | c :: r =>
    if c.isDigit && intDigitsTail r then
      let v : Int := charsToNat ((c :: r).filter (fun x => x ≠ '_'))
      some (if p.1 then -v else v)
    else none

/-- Python `int(v)` on a `PyVal`; raises (`.error`) on `None` and on strings
that do not parse as an integer. -/
def pyInt (v : PyVal) : Except Unit Int :=
  match v with
  | .vInt n => .ok n
  | .vStr s =>
    match parsePyInt s with
    | some n => .ok n
    | none => .error ()
  | .vNone => .error ()

/-- Digit characters of a positive natural number, most significant first.
The first argument is fuel; `n` itself is always enough. -/
def natToCharsAux : Nat → Nat → List Char
  | 0, _ => []
  | fuel + 1, n =>
    if n = 0 then [] else natToCharsAux fuel (n / 10) ++ [Nat.digitChar (n % 10)]

/-- Decimal digit string of a natural number (Python `str`). -/
def natToChars (n : Nat) : List Char :=
  if n = 0 then ['0'] else natToCharsAux n n

/-- Python `str(n)` for an int. -/
def intToString (n : Int) : String :=
  String.mk ((if n < 0 then ['-'] else []) ++ natToChars n.natAbs)

/-- Python `str(raw_amount)` for the value read from the `tokenAmount` field
(`str(None)` is the string `"None"`, which `Decimal` then rejects). -/
def pyStr : Option PyVal → String
  | none => "None"
  | some (.vInt n) => intToString n
  | some (.vStr s) => s
  | some .vNone => "None"

/-! ### Decimal literal parsing (`decimal.Decimal(string)`) -/

/-- Exponent part of a decimal literal: optional sign, one or more digits,
nothing left over. -/
def parseExponent (cs : List Char) : Option Int :=
  let p := splitSign cs
  if p.2 ≠ [] ∧ p.2.all Char.isDigit then
    some (if p.1 then -(charsToNat p.2 : Int) else (charsToNat p.2 : Int))
  else none

/-- Finite-decimal-literal parser matching `Decimal(str)`:
`[sign] digits [. digits] [(e|E) [sign] digits]`, at least one digit in the
mantissa, the whole input consumed. -/
def parseDecimalChars (cs : List Char) : Option Rat :=
  let p := splitSign cs
  let ip := p.2.takeWhile Char.isDigit
  let rest1 := p.2.dropWhile Char.isDigit
  let fp := match rest1 with
    | '.' :: r => r.takeWhile Char.isDigit
    | _ => []
  let rest2 := match rest1 with
    | '.' :: r => r.dropWhile Char.isDigit
    | _ => rest1
  if ip = [] ∧ fp = [] then none
  else
    let mag : ℚ := (charsToNat ip : ℚ) + (charsToNat fp : ℚ) / (10 : ℚ) ^ fp.length
    let signed : ℚ := if p.1 then -mag else mag
    match rest2 with
    | [] => some signed
    | 'e' :: r => (parseExponent r).map (fun e => signed * (10 : ℚ) ^ e)
    | 'E' :: r => (parseExponent r).map (fun e => signed * (10 : ℚ) ^ e)
    | _ => none

/-- `Decimal(s)` on a string. -/
def parseDecimal (s : String) : Option Rat :=
  parseDecimalChars s.data

/-- `normalize_token_amount`: `Decimal(str(raw_amount))`, with any parse
failure caught and replaced by `Decimal(0)`. -/
def normalize_token_amount (raw : Option PyVal) : ℚ :=
  match parseDecimal (pyStr raw) with
  | some q => q
  | none => 0

/-! ### The full `Decimal` string constructor and the `amount <= 0` test -/

/-- The value classes a `Decimal(string)` construction can yield: a finite
value, a signed infinity (`"Infinity"` / `"Inf"`), or a (possibly signaling)
NaN. -/
inductive DecValue where
  | fin : ℚ → DecValue
  | inf : Bool → DecValue
  | nan : DecValue
deriving DecidableEq

/-- The special numeric values after the optional sign: `inf` / `infinity`,
and `nan` / `snan` with an optional decimal diagnostic, case-insensitively. -/
def parseDecSpecial (neg : Bool) (cs : List Char) : Option DecValue :=
  let low := cs.map Char.toLower
  if low = ['i', 'n', 'f'] ∨ low = ['i', 'n', 'f', 'i', 'n', 'i', 't', 'y'] then
    some (.inf neg)
  else if low.take 3 = ['n', 'a', 'n'] ∧ (low.drop 3).all Char.isDigit then
    some .nan
  else if low.take 4 = ['s', 'n', 'a', 'n'] ∧ (low.drop 4).all Char.isDigit then
    some .nan
  else none

/-- The unsigned finite part of a decimal numeric string:
`digits [. digits]` or `[.] digits`, with an optional `e`/`E` exponent and
the whole input consumed. -/
def parseDecUnsigned (cs : List Char) : Option ℚ :=
  let ip := cs.takeWhile Char.isDigit
  let rest1 := cs.dropWhile Char.isDigit
  let fp := match rest1 with
    | '.' :: r => r.takeWhile Char.isDigit
    | _ => []
  let rest2 := match rest1 with
    | '.' :: r => r.dropWhile Char.isDigit
    | _ => rest1
  if ip = [] ∧ fp = [] then none
  else
    let mag : ℚ := (charsToNat ip : ℚ) + (charsToNat fp : ℚ) / (10 : ℚ) ^ fp.length
    match rest2 with
    | [] => some mag
    | 'e' :: r => (parseExponent r).map (fun e => mag * (10 : ℚ) ^ e)
    | 'E' :: r => (parseExponent r).map (fun e => mag * (10 : ℚ) ^ e)
    | _ => none

/-- `Decimal(s)` on a string, as the constructor actually behaves:
surrounding whitespace is stripped and underscores are removed throughout,
then the numeric-string grammar is applied — an optional sign followed by
either a finite numeric value, an infinity literal, or a NaN literal.
`none` models the constructions that raise (and that
`normalize_token_amount` therefore catches). -/
def decConstruct (s : String) : Option DecValue :=
  let t := (stripWs s.data).filter (fun c => c ≠ '_')
  let p := splitSign t
  match parseDecSpecial p.1 p.2 with
  | some v => some v
  | none => (parseDecUnsigned p.2).map (fun q => .fin (if p.1 then -q else q))

/-- `normalize_token_amount` under the full constructor semantics: a
construction failure is caught and replaced by `Decimal(0)`; NaN and
infinity literals construct successfully and are not caught. -/
def decNormalize (raw : Option PyVal) : DecValue :=
  match decConstruct (pyStr raw) with
  | some v => v
  | none => .fin 0

/-- The `amount <= 0` comparison on a `Decimal`: an ordering comparison
against a NaN operand raises `InvalidOperation`; otherwise `-Infinity <= 0`
holds and `+Infinity <= 0` does not. -/
def decLeZero : DecValue → Except Unit Bool
  | .nan => .error ()
  | .inf b => .ok b
  | .fin q => .ok (decide (q ≤ 0))

/-! ### Fixed-point rendering (`format_decimal`) -/

/-- Floor of a rational as an integer (`q.num.ediv q.den`; the denominator is
positive, so Euclidean division is floor division). -/
def ratFloor (q : ℚ) : Int :=
  q.num.ediv (q.den : Int)

/-- Round to the nearest integer, ties to the even neighbour — the rounding
used when formatting a `Decimal` with `f"{amount:.{precision}f}"`. -/
def roundHalfEven (q : ℚ) : Int :=
  if q - (ratFloor q : ℚ) < 1 / 2 then ratFloor q
  else if (1 : ℚ) / 2 < q - (ratFloor q : ℚ) then ratFloor q + 1
  else if ratFloor q % 2 = 0 then ratFloor q else ratFloor q + 1

/-- Left-pad a digit string with zeros to width `k`. -/
def padLeftZeros (k : Nat) (l : List Char) : List Char :=
  List.replicate (k - l.length) '0' ++ l

/-- `f"{amount:.{precision}f}"` on a `Decimal`: sign of the value, integer
digits, and (for positive precision) a point followed by exactly `precision`
fraction digits of the half-even-rounded magnitude. -/
def renderFixed (amount : ℚ) (precision : Nat) : List Char :=
  let m := (roundHalfEven (|amount| * (10 : ℚ) ^ precision)).toNat
  let ip := m / 10 ^ precision
  let fp := m % 10 ^ precision
  (if amount < 0 then ['-'] else []) ++ natToChars ip ++
    (if precision = 0 then [] else '.' :: padLeftZeros precision (natToChars fp))

/-- Python `s.rstrip(c)` for a one-character strip set, on char lists. -/
def dropTrailing (c : Char) (l : List Char) : List Char :=
  (l.reverse.dropWhile (fun x => x = c)).reverse

/-- `format_decimal`: fixed-point rendering, then — when a point is present —
strip trailing zeros and any trailing point; an emptied string becomes `"0"`. -/
def format_decimal (amount : ℚ) (precision : Nat) : String :=
  let fd := renderFixed amount precision
  let fd2 := if '.' ∈ fd then dropTrailing '.' (dropTrailing '0' fd) else fd
  if fd2 = [] then "0" else String.mk fd2

/-! ### Transaction records and aggregation -/

/-- One entry of `nativeTransfers` (fields read by the source). -/
structure NativeTransfer where
  amount : Option PyVal
  fromUserAccount : Option String
  toUserAccount : Option String
deriving DecidableEq

/-- One entry of `tokenTransfers` (fields read by the source). -/
structure TokenTransfer where
  tokenAmount : Option PyVal
  fromUserAccount : Option String
  toUserAccount : Option String
  mint : Option String
deriving DecidableEq

/-- A raw transaction record (fields read by `convert_transactions.py`). -/
structure Tx where
  signature : Option String
  timestamp : Option Int
  fee : Option PyVal
  nativeTransfers : Option (List NativeTransfer)
  tokenTransfers : Option (List TokenTransfer)

/-- The `changes` accumulator: an insertion-ordered association list
`asset ↦ (in total, out total)`, mirroring the Python `defaultdict`. -/
abbrev Changes := List (String × ℚ × ℚ)

def MIN_NATIVE_TRANSFER_LAMPORTS : Int := 5000

/-- `changes[key]["in"] += dIn; changes[key]["out"] += dOut` on the
`defaultdict`: update the existing entry in place, or append a fresh
`(0, 0)` entry at the end (dict insertion order). -/
def addChange (cs : Changes) (key : String) (dIn dOut : ℚ) : Changes :=
  match cs with
  | [] => [(key, dIn, dOut)]
  | (k, i, o) :: rest =>
    if k = key then (k, i + dIn, o + dOut) :: rest
    else (k, i, o) :: addChange rest key dIn dOut

/-- Body of the `for transfer in native_transfers` loop of
`summarize_changes`.  `int(transfer.get("amount") or 0)` can raise. -/
def processNative (address : String) (cs : Changes) (t : NativeTransfer) :
    Except Unit Changes :=
  match pyInt (pyOr0 t.amount) with
  | .error e => .error e
  | .ok amount =>
    if amount < MIN_NATIVE_TRANSFER_LAMPORTS then .ok cs
    else if t.fromUserAccount = t.toUserAccount ∧ t.toUserAccount = some address then .ok cs
    else
      let cs1 := if t.fromUserAccount = some address then addChange cs "SOL" 0 (amount : ℚ) else cs
      .ok (if t.toUserAccount = some address then addChange cs1 "SOL" (amount : ℚ) 0 else cs1)

/-- `transfer.get("mint") or "UNKNOWN"`. -/
def mintKey (t : TokenTransfer) : String :=
  match t.mint with
  | some s => if s = "" then "UNKNOWN" else s
  | none => "UNKNOWN"

/-- Body of the `for transfer in token_transfers` loop of
`summarize_changes`; never raises (the amount parse failure is caught). -/
def processToken (address : String) (cs : Changes) (t : TokenTransfer) : Changes :=
  let amount := normalize_token_amount t.tokenAmount
  if amount ≤ 0 then cs
  else if t.fromUserAccount = t.toUserAccount ∧ t.toUserAccount = some address then cs
  else
    let cs1 := if t.fromUserAccount = some address then addChange cs (mintKey t) 0 amount else cs
    if t.toUserAccount = some address then addChange cs1 (mintKey t) amount 0 else cs1

/-- Control-flow outcome of one iteration of the token-transfer loop: the
leg is skipped (`continue`), or it is counted under a mint key, with the
amount and the out/in direction flags recorded. -/
inductive TokenLegStep where
  | skip : TokenLegStep
  | count : String → DecValue → Bool → Bool → TokenLegStep
deriving DecidableEq

/-- One iteration of the `for transfer in token_transfers` loop under the
full `Decimal` semantics (lines 91–104): normalize the amount, compute the
mint key, `continue` when `amount <= 0` (a comparison that raises on a NaN
amount) or on a pure self-transfer, and otherwise count the leg under the
mint key with its direction flags. -/
def tokenLegStep (address : String) (t : TokenTransfer) :
    Except Unit TokenLegStep :=
  let amount := decNormalize t.tokenAmount
  match decLeZero amount with
  | .error e => .error e
  | .ok true => .ok .skip
  | .ok false =>
    if t.fromUserAccount = t.toUserAccount ∧ t.toUserAccount = some address then
      .ok .skip
    else
      .ok (.count (mintKey t) amount
        (decide (t.fromUserAccount = some address))
        (decide (t.toUserAccount = some address)))

/-- The `for transfer in native_transfers` loop: left-to-right fold of
`processNative`, stopping at the first uncaught exception. -/
def foldNative (address : String) : Changes → List NativeTransfer → Except Unit Changes
  | cs, [] => .ok cs
  | cs, t :: ts =>
    match processNative address cs t with
    | .error e => .error e
    | .ok cs2 => foldNative address cs2 ts

/-- `summarize_changes(address, tx)`: fold both transfer lists into the
per-asset `in`/`out` totals. -/
def summarize_changes (address : String) (tx : Tx) : Except Unit Changes :=
  match foldNative address [] (tx.nativeTransfers.getD []) with
  | .error e => .error e
  | .ok cs => .ok ((tx.tokenTransfers.getD []).foldl (processToken address) cs)

/-! ### Row emission (`iter_rows`) -/

/-- `lamports_to_sol`. -/
def lamports_to_sol (lamports : Int) : ℚ :=
  (lamports : ℚ) / 1000000000

/-- Python `int(d)` on a `Decimal`: truncation toward zero. -/
def ratTruncInt (q : ℚ) : Int :=
  Int.tdiv q.num (q.den : Int)

/-- Zero-padded decimal rendering of a natural number, width `w`. -/
def natPad (w : Nat) (n : Nat) : List Char :=
  padLeftZeros w (natToChars n)

/-- `format_timestamp`: UTC ISO-8601 of an epoch-second timestamp
(`datetime.fromtimestamp(ts, tz=timezone.utc).isoformat()`), via the
standard civil-from-days calendar computation. -/
def format_timestamp (ts : Int) : String :=
  let days := Int.fdiv ts 86400
  let secs := (ts - 86400 * days).toNat
  let z := days + 719468
  let era := Int.fdiv z 146097
  let doe := (z - era * 146097).toNat
  let yoe := (doe - doe / 1460 + doe / 36524 - doe / 146096) / 365
  let doy := doe - (365 * yoe + yoe / 4 - yoe / 100)
  let mp := (5 * doy + 2) / 153
  let d := doy - (153 * mp + 2) / 5 + 1
  let m := if mp < 10 then mp + 3 else mp - 9
  let y := (yoe : Int) + era * 400 + (if m ≤ 2 then 1 else 0)
  String.mk (natPad 4 y.toNat ++ '-' :: natPad 2 m ++ '-' :: natPad 2 d ++
    'T' :: natPad 2 (secs / 3600) ++ ':' :: natPad 2 (secs / 60 % 60) ++
    ':' :: natPad 2 (secs % 60) ++ ['+', '0', '0', ':', '0', '0'])

/-- One output row (the CSV column `Fee (SOL)` is the field `FeeSOL`). -/
structure Row where
  Date : String
  TransactionHash : String
  Asset : String
  Amount_IN : String
  Amount_OUT : String
  FeeSOL : String
deriving DecidableEq

/-- Body of the `for asset, values in changes.items()` loop of `iter_rows`:
skip an asset whose totals are both zero, otherwise build its row (SOL
totals are converted from lamports at this point). -/
def rowOf (date signature : String) (fee_sol : ℚ) (e : String × ℚ × ℚ) :
    Option Row :=
  if e.2.1 = 0 ∧ e.2.2 = 0 then none
  else
    let amounts :=
      if e.1 = "SOL" then
        (lamports_to_sol (ratTruncInt e.2.1), lamports_to_sol (ratTruncInt e.2.2))
      else (e.2.1, e.2.2)
    some { Date := date, TransactionHash := signature, Asset := e.1,
           Amount_IN := format_decimal amounts.1 9,
           Amount_OUT := format_decimal amounts.2 9,
           FeeSOL := format_decimal fee_sol 9 }

/-- `iter_rows(address, tx)`: one row per asset with some movement;
`int(tx.get("fee") or 0)` can raise on a malformed fee. -/
def iter_rows (address : String) (tx : Tx) : Except Unit (List Row) :=
  let date := match tx.timestamp with
    | some ts => format_timestamp ts
    | none => ""
  let signature := tx.signature.getD ""
  match pyInt (pyOr0 tx.fee) with
  | .error e => .error e
  | .ok feeRaw =>
  let fee_sol := lamports_to_sol feeRaw
  match summarize_changes address tx with
  | .error e => .error e
  | .ok changes =>
  if changes = [] then .ok []
  else .ok (changes.filterMap (rowOf date signature fee_sol))

/-! ### Signature pagination (`solscan_fetch.fetch_signatures`) -/

/-- One entry of the raw `result` list of a signatures response: either not a
dict, or a dict whose `signature` field may be absent (`none`) or any string. -/
inductive SigEntry where
  | notDict : SigEntry
  | dict : Option String → SigEntry
deriving DecidableEq

/-- The list produced by
`[entry.get("signature") for entry in result if isinstance(entry, dict)]`. -/
def rawSignatureFields (result : List SigEntry) : List (Option String) :=
  (result.filter (fun e => match e with | .dict _ => true | .notDict => false)).map
    (fun e => match e with | .dict s => s | .notDict => none)

/-- `[sig for sig in signatures if sig]`: keep only truthy (present,
non-empty) signatures. -/
def keepTruthySigs (l : List (Option String)) : List String :=
  l.filterMap (fun s => match s with
    | some str => if str = "" then none else some str
    | none => none)

/-- `fetch_signatures`, given the raw `result` list of the response: the
filtered signature list, and `signatures[-1]` as the next cursor when the raw
page size equals `limit` and the filtered list is non-empty. -/
def fetch_signatures (result : List SigEntry) (limit : Nat) :
    List String × Option String :=
  let signatures := keepTruthySigs (rawSignatureFields result)
  let next_before :=
    if result.length = limit ∧ signatures ≠ [] then signatures.getLast? else none
  (signatures, next_before)

/-! ### Bounded retry fetcher (`fetch_transactions_with_retries`) -/

/-- One element of a transaction-batch response: either not a dict, or a dict
whose own `signature` field may be absent or any string. -/
inductive TxRec where
  | notDict : TxRec
  | dict : Option String → TxRec
deriving DecidableEq

/-- `{tx.get("signature") for tx in page if isinstance(tx, dict) and
tx.get("signature")}` (membership in the set is what the source uses, so a
list with the same members is an adequate model). -/
def returnedSignatures (page : List TxRec) : List String :=
  page.filterMap (fun r => match r with
    | .dict (some s) => if s = "" then none else some s
    | .dict none => none
    | .notDict => none)

/-- Result of the retry fetcher: records collected, signatures still missing
at the end (the warning `print` fires exactly when `missing ≠ []`; nothing is
raised), and the number of fetch calls performed. -/
structure RetryResult where
  collected : List TxRec
  missing : List String
  attempts : Nat
deriving DecidableEq

/-- The `for attempt in range(1, max_attempts + 1)` loop of
`fetch_transactions_with_retries`; `api` is the transaction-batch response as
a function of the requested signatures. -/
def retriesAux (api : List String → List TxRec) :
    Nat → List String → List TxRec → Nat → RetryResult
  | 0, remaining, collected, attempts => ⟨collected, remaining, attempts⟩
  | fuel + 1, remaining, collected, attempts =>
    if remaining = [] then ⟨collected, remaining, attempts⟩
    else
      let page := api remaining
      let remaining2 := remaining.filter (fun s => !(returnedSignatures page).contains s)
      retriesAux api fuel remaining2 (collected ++ page) (attempts + 1)

/-- `fetch_transactions_with_retries(rest_url, api_key, signatures, delay,
max_attempts)` with the transport abstracted into `api`. -/
def fetch_transactions_with_retries (api : List String → List TxRec)
    (signatures : List String) (max_attempts : Nat) : RetryResult :=
  retriesAux api max_attempts signatures [] 0

/-! ### Per-address orchestration loop (`fetch_all_transactions`) -/

/-- Outcome of one iteration of the `while True` loop: stop with the final
accumulated list, or continue with the grown accumulator and a new cursor. -/
inductive PageDecision where
  | stop : List TxRec → PageDecision
  | goNext : List TxRec → String → PageDecision
deriving DecidableEq

/-- `PageDecision.stop` as a proposition. -/
def PageDecision.isStop : PageDecision → Prop
  | .stop _ => True
  | .goNext _ _ => False

/-- One iteration of the loop body of `fetch_all_transactions`, lines
144–162 of `solscan_fetch.py`, applied to the raw `result` list the
signatures API returned for the current cursor. -/
def processPage (txApi : List String → List TxRec) (limit : Nat)
    (maxTx : Option Nat) (acc : List TxRec) (raw : List SigEntry) : PageDecision :=
  let page := fetch_signatures raw limit
  if page.1 = [] then .stop acc
  else
    let acc2 := acc ++ (fetch_transactions_with_retries txApi page.1 3).collected
    match maxTx with
    | some m =>
      if m ≤ acc2.length then .stop (acc2.take m)
      else if page.1.length < limit then .stop acc2
      else
        match page.2 with
        | none => .stop acc2
        | some b => .goNext acc2 b
    | none =>
      if page.1.length < limit then .stop acc2
      else
        match page.2 with
        | none => .stop acc2
        | some b => .goNext acc2 b

/-- `fetch_all_transactions` for one address: the `while True` loop, driven
by the signature-page oracle `sigApi` (raw `result` list per cursor).  The
source loop has no built-in bound, so it is modelled with fuel; `none` means
the fuel ran out before the loop stopped. -/
def fetch_all_transactions (sigApi : Option String → List SigEntry)
    (txApi : List String → List TxRec) (limit : Nat) (maxTx : Option Nat) :
    Nat → Option String → List TxRec → Option (List TxRec)
  | 0, _, _ => none
  | fuel + 1, before, acc =>
    match processPage txApi limit maxTx acc (sigApi before) with
    | .stop res => some res
    | .goNext acc2 b => fetch_all_transactions sigApi txApi limit maxTx fuel (some b) acc2

/-! ### Digit-string lemmas -/

theorem charsToNat_append_singleton (l : List Char) (c : Char) :
    charsToNat (l ++ [c]) = 10 * charsToNat l + (c.toNat - 48) := by
  simp [charsToNat, List.foldl_append]

theorem digitChar_toNat {d : Nat} (h : d < 10) : (Nat.digitChar d).toNat - 48 = d := by
  interval_cases d <;> decide

theorem digitChar_isDigit {d : Nat} (h : d < 10) : (Nat.digitChar d).isDigit = true := by
  interval_cases d <;> decide

theorem charsToNat_natToCharsAux :
    ∀ fuel n, n ≤ fuel → charsToNat (natToCharsAux fuel n) = n := by
  intro fuel
  induction fuel with
  | zero =>
    intro n h
    interval_cases n
    rfl
  | succ f ih =>
    intro n h
    by_cases h0 : n = 0
    · subst h0
      simp [natToCharsAux, charsToNat]
    · have hdiv : n / 10 < n := Nat.div_lt_self (Nat.pos_of_ne_zero h0) (by norm_num)
      rw [natToCharsAux, if_neg h0, charsToNat_append_singleton,
        ih (n / 10) (by omega), digitChar_toNat (Nat.mod_lt n (by norm_num))]
      exact Nat.div_add_mod n 10

theorem charsToNat_natToChars (n : Nat) : charsToNat (natToChars n) = n := by
  by_cases h0 : n = 0
  · subst h0; rfl
  · rw [natToChars, if_neg h0]
    exact charsToNat_natToCharsAux n n le_rfl

theorem natToCharsAux_all_digits :
    ∀ fuel n, ∀ c ∈ natToCharsAux fuel n, c.isDigit = true := by
  intro fuel
  induction fuel with
  | zero => intro n c hc; simp [natToCharsAux] at hc
  | succ f ih =>
    intro n c hc
    by_cases h0 : n = 0
    · subst h0; simp [natToCharsAux] at hc
    · rw [natToCharsAux, if_neg h0] at hc
      rcases List.mem_append.mp hc with h | h
      · exact ih _ c h
      · rcases List.mem_singleton.mp h with rfl
        exact digitChar_isDigit (Nat.mod_lt n (by norm_num))

theorem natToChars_all_digits (n : Nat) : ∀ c ∈ natToChars n, c.isDigit = true := by
  intro c hc
  by_cases h0 : n = 0
  · subst h0
    rcases List.mem_singleton.mp hc with rfl
    decide
  · rw [natToChars, if_neg h0] at hc
    exact natToCharsAux_all_digits n n c hc

theorem natToChars_ne_nil (n : Nat) : natToChars n ≠ [] := by
  by_cases h0 : n = 0
  · subst h0; simp [natToChars]
  · rw [natToChars, if_neg h0]
    cases hn : n with
    | zero => exact absurd hn h0
    | succ m =>
      rw [natToCharsAux, if_neg (hn ▸ h0)]
      simp

theorem natToCharsAux_length :
    ∀ fuel n k, n < 10 ^ k → (natToCharsAux fuel n).length ≤ k := by
  intro fuel
  induction fuel with
  | zero => intro n k _; simp [natToCharsAux]
  | succ f ih =>
    intro n k hn
    by_cases h0 : n = 0
    · subst h0; simp [natToCharsAux]
    · have hk : k ≠ 0 := by
        rintro rfl
        simp at hn
        omega
      rw [natToCharsAux, if_neg h0]
      have hdiv : n / 10 < 10 ^ (k - 1) := by
        rw [Nat.div_lt_iff_lt_mul (by norm_num : 0 < 10)]
        have : 10 ^ (k - 1) * 10 = 10 ^ k := by
          rw [← pow_succ]
          congr 1
          omega
        omega
      have := ih (n / 10) (k - 1) hdiv
      simp only [List.length_append, List.length_singleton]
      omega

theorem natToChars_length_le {n k : Nat} (hk : 0 < k) (h : n < 10 ^ k) :
    (natToChars n).length ≤ k := by
  by_cases h0 : n = 0
  · subst h0; simpa [natToChars] using hk
  · rw [natToChars, if_neg h0]
    exact natToCharsAux_length n n k h

theorem charsToNat_replicate_append (k : Nat) (l : List Char) :
    charsToNat (List.replicate k '0' ++ l) = charsToNat l := by
  induction k with
  | zero => simp
  | succ m ih =>
    have : List.replicate (m + 1) '0' ++ l = '0' :: (List.replicate m '0' ++ l) := by
      simp [List.replicate_succ]
    rw [this]
    simpa [charsToNat] using ih

theorem charsToNat_append_replicate (l : List Char) (k : Nat) :
    charsToNat (l ++ List.replicate k '0') = charsToNat l * 10 ^ k := by
  induction k with
  | zero => simp
  | succ m ih =>
    rw [List.replicate_succ', ← List.append_assoc, charsToNat_append_singleton, ih]
    have : ('0').toNat - 48 = 0 := by decide
    rw [this, pow_succ]
    ring

/-! ### takeWhile / dropWhile / trailing-strip lemmas -/

theorem takeWhile_append_all {p : Char → Bool} :
    ∀ (l r : List Char), (∀ c ∈ l, p c = true) →
      (∀ c, r.head? = some c → p c = false) → (l ++ r).takeWhile p = l := by
  intro l
  induction l with
  | nil =>
    intro r _ hr
    cases r with
    | nil => rfl
    | cons c r' => simp [List.takeWhile_cons, hr c rfl]
  | cons a l ih =>
    intro r hl hr
    have ha : p a = true := hl a (List.mem_cons_self a l)
    have ih' := ih r (fun c hc => hl c (List.mem_cons_of_mem a hc)) hr
    simp [List.takeWhile_cons, ha, ih']

theorem dropWhile_append_all {p : Char → Bool} :
    ∀ (l r : List Char), (∀ c ∈ l, p c = true) →
      (∀ c, r.head? = some c → p c = false) → (l ++ r).dropWhile p = r := by
  intro l
  induction l with
  | nil =>
    intro r _ hr
    cases r with
    | nil => rfl
    | cons c r' => simp [List.dropWhile_cons, hr c rfl]
  | cons a l ih =>
    intro r hl hr
    have ha : p a = true := hl a (List.mem_cons_self a l)
    simp only [List.cons_append, List.dropWhile_cons, ha]
    exact ih r (fun c hc => hl c (List.mem_cons_of_mem a hc)) hr

theorem dropWhile_append_cons {p : Char → Bool} {x : Char} (hx : p x = false) :
    ∀ (m r : List Char), (m ++ x :: r).dropWhile p = m.dropWhile p ++ x :: r := by
  intro m
  induction m with
  | nil => intro r; simp [List.dropWhile_cons, hx]
  | cons a m ih =>
    intro r
    by_cases ha : p a = true
    · simp only [List.cons_append, List.dropWhile_cons, ha]
      exact ih r
    · have ha' : p a = false := by simpa using ha
      simp [List.dropWhile_cons, ha']

theorem dropTrailing_append_cons {c x : Char} (hx : x ≠ c) (A F : List Char) :
    dropTrailing c (A ++ x :: F) = A ++ x :: dropTrailing c F := by
  unfold dropTrailing
  have hpx : (fun y => decide (y = c)) x = false := by
    simpa using hx
  have hrev : (A ++ x :: F).reverse = F.reverse ++ x :: A.reverse := by
    simp
  rw [hrev, dropWhile_append_cons hpx]
  simp

theorem dropTrailing_eq_self {c : Char} {l : List Char}
    (h : ∀ x, l.getLast? = some x → x ≠ c) : dropTrailing c l = l := by
  unfold dropTrailing
  rcases hrev : l.reverse with _ | ⟨x, m⟩
  · simp_all
  · have hx : x ≠ c := by
      apply h
      rw [List.getLast?_eq_head?_reverse, hrev]
      rfl
    have hpx : decide (x = c) = false := by simpa using hx
    rw [List.dropWhile_cons]
    simp only [hpx, Bool.false_eq_true, if_false]
    rw [← hrev, List.reverse_reverse]

theorem dropTrailing_decomp (c : Char) (l : List Char) :
    ∃ k, l = dropTrailing c l ++ List.replicate k c := by
  refine ⟨(l.reverse.takeWhile (fun y => decide (y = c))).length, ?_⟩
  have htd := List.takeWhile_append_dropWhile (fun y => decide (y = c)) l.reverse
  have hrep : l.reverse.takeWhile (fun y => decide (y = c)) =
      List.replicate (l.reverse.takeWhile (fun y => decide (y = c))).length c := by
    apply List.eq_replicate_of_mem
    intro b hb
    simpa using List.mem_takeWhile_imp hb
  have h2 : (l.reverse.takeWhile (fun y => decide (y = c))).reverse =
      List.replicate (l.reverse.takeWhile (fun y => decide (y = c))).length c := by
    conv_lhs => rw [hrep]
    rw [List.reverse_replicate]
  calc l = l.reverse.reverse := (List.reverse_reverse l).symm
    _ = (l.reverse.takeWhile (fun y => decide (y = c)) ++
          l.reverse.dropWhile (fun y => decide (y = c))).reverse := by rw [htd]
    _ = dropTrailing c l ++ (l.reverse.takeWhile (fun y => decide (y = c))).reverse := by
          rw [List.reverse_append]; rfl
    _ = _ := by rw [h2]

theorem mem_dropTrailing {c x : Char} {l : List Char} (h : x ∈ dropTrailing c l) :
    x ∈ l := by
  unfold dropTrailing at h
  rw [List.mem_reverse] at h
  have := (@List.dropWhile_sublist _ l.reverse (fun y => decide (y = c))).mem h
  simpa using this

/-! ### Floor and half-even rounding lemmas -/

theorem ratFloor_le (q : ℚ) : (ratFloor q : ℚ) ≤ q := by
  have hd : (0 : ℤ) < (q.den : ℤ) := by exact_mod_cast q.den_pos
  have h := Int.ediv_add_emod q.num (q.den : ℤ)
  have h2 : 0 ≤ q.num % (q.den : ℤ) := Int.emod_nonneg _ (by omega)
  have hz : ratFloor q * (q.den : ℤ) ≤ q.num := by
    have : ratFloor q = q.num / (q.den : ℤ) := rfl
    nlinarith [this]
  have hq : (0 : ℚ) < (q.den : ℚ) := by positivity
  conv_rhs => rw [← Rat.num_div_den q]
  rw [le_div_iff₀ hq]
  exact_mod_cast hz

theorem lt_ratFloor_add_one (q : ℚ) : q < (ratFloor q : ℚ) + 1 := by
  have hd : (0 : ℤ) < (q.den : ℤ) := by exact_mod_cast q.den_pos
  have h := Int.ediv_add_emod q.num (q.den : ℤ)
  have h2 : q.num % (q.den : ℤ) < (q.den : ℤ) := Int.emod_lt_of_pos _ hd
  have hz : q.num < (ratFloor q + 1) * (q.den : ℤ) := by
    have : ratFloor q = q.num / (q.den : ℤ) := rfl
    nlinarith [this]
  have hq : (0 : ℚ) < (q.den : ℚ) := by positivity
  conv_lhs => rw [← Rat.num_div_den q]
  rw [div_lt_iff₀ hq]
  exact_mod_cast hz

theorem roundHalfEven_close (q : ℚ) : |(roundHalfEven q : ℚ) - q| ≤ 1 / 2 := by
  have h1 := ratFloor_le q
  have h2 := lt_ratFloor_add_one q
  rw [roundHalfEven]
  by_cases hc1 : q - (ratFloor q : ℚ) < 1 / 2
  · rw [if_pos hc1, abs_le]
    constructor <;> linarith
  · rw [if_neg hc1]
    by_cases hc2 : (1 : ℚ) / 2 < q - (ratFloor q : ℚ)
    · rw [if_pos hc2, abs_le]
      push_cast
      constructor <;> linarith
    · rw [if_neg hc2]
      by_cases hc3 : ratFloor q % 2 = 0
      · rw [if_pos hc3, abs_le]
        constructor <;> linarith
      · rw [if_neg hc3, abs_le]
        push_cast
        constructor <;> linarith

theorem roundHalfEven_nonneg {q : ℚ} (h : 0 ≤ q) : 0 ≤ roundHalfEven q := by
  have h1 : 0 ≤ ratFloor q :=
    Int.ediv_nonneg (Rat.num_nonneg.mpr h) (by positivity)
  rw [roundHalfEven]
  split
  · exact h1
  · split
    · omega
    · split <;> omega

/-! ### Parsing a rendered digit string -/

theorem charsToNat_nil : charsToNat [] = 0 := rfl

theorem takeWhile_all {p : Char → Bool} {l : List Char} (h : ∀ c ∈ l, p c = true) :
    l.takeWhile p = l := by
  have := takeWhile_append_all l [] h (by simp)
  simpa using this

theorem dropWhile_all {p : Char → Bool} {l : List Char} (h : ∀ c ∈ l, p c = true) :
    l.dropWhile p = [] := by
  have := dropWhile_append_all l [] h (by simp)
  simpa using this

theorem isDigit_ne {c d : Char} (hc : c.isDigit = true) (hd : d.isDigit = false) :
    c ≠ d := by
  intro h
  subst h
  rw [hc] at hd
  cases hd

theorem dropTrailing_append_singleton (c : Char) (B : List Char) :
    dropTrailing c (B ++ [c]) = dropTrailing c B := by
  unfold dropTrailing
  rw [List.reverse_append]
  simp [List.dropWhile_cons]

theorem splitSign_neg (rest : List Char) : splitSign ('-' :: rest) = (true, rest) := by
  simp [splitSign]

theorem splitSign_digit {c : Char} (hc : c.isDigit = true) (rest : List Char) :
    splitSign (c :: rest) = (false, c :: rest) := by
  have h1 : c ≠ '-' := isDigit_ne hc (by decide)
  have h2 : c ≠ '+' := isDigit_ne hc (by decide)
  simp [splitSign, h1, h2]

theorem parseDecimalChars_digits_dot (neg : Bool) (I F : List Char)
    (hI : I ≠ []) (hIdig : ∀ c ∈ I, c.isDigit = true)
    (hFdig : ∀ c ∈ F, c.isDigit = true) :
    parseDecimalChars ((if neg then ['-'] else []) ++ I ++ '.' :: F) =
      some (if neg
        then -((charsToNat I : ℚ) + (charsToNat F : ℚ) / (10 : ℚ) ^ F.length)
        else (charsToNat I : ℚ) + (charsToNat F : ℚ) / (10 : ℚ) ^ F.length) := by
  obtain ⟨c, I₂, rfl⟩ : ∃ c I₂, I = c :: I₂ := by
    cases I with
    | nil => exact absurd rfl hI
    | cons c I₂ => exact ⟨c, I₂, rfl⟩
  have hc : c.isDigit = true := hIdig c (List.mem_cons_self c I₂)
  have hsplit : splitSign ((if neg then ['-'] else []) ++ ((c :: I₂) ++ '.' :: F))
      = (neg, (c :: I₂) ++ '.' :: F) := by
    cases neg with
    | true => simpa using splitSign_neg ((c :: I₂) ++ '.' :: F)
    | false => simpa using splitSign_digit hc (I₂ ++ '.' :: F)
  have hdothead : ∀ x : Char, ('.' :: F).head? = some x → x.isDigit = false := by
    intro x hx
    simp only [List.head?_cons, Option.some.injEq] at hx
    subst hx
    decide
  have htake : ((c :: I₂) ++ '.' :: F).takeWhile Char.isDigit = c :: I₂ :=
    takeWhile_append_all _ _ hIdig hdothead
  have hdrop : ((c :: I₂) ++ '.' :: F).dropWhile Char.isDigit = '.' :: F :=
    dropWhile_append_all _ _ hIdig hdothead
  have htakeF : F.takeWhile Char.isDigit = F := takeWhile_all hFdig
  have hdropF : F.dropWhile Char.isDigit = [] := dropWhile_all hFdig
  simp only [parseDecimalChars, List.append_assoc, hsplit, htake, hdrop, htakeF, hdropF]
  simp [htakeF]

theorem parseDecimalChars_digits_only (neg : Bool) (I : List Char)
    (hI : I ≠ []) (hIdig : ∀ c ∈ I, c.isDigit = true) :
    parseDecimalChars ((if neg then ['-'] else []) ++ I) =
      some (if neg then -(charsToNat I : ℚ) else (charsToNat I : ℚ)) := by
  obtain ⟨c, I₂, rfl⟩ : ∃ c I₂, I = c :: I₂ := by
    cases I with
    | nil => exact absurd rfl hI
    | cons c I₂ => exact ⟨c, I₂, rfl⟩
  have hc : c.isDigit = true := hIdig c (List.mem_cons_self c I₂)
  have hsplit : splitSign ((if neg then ['-'] else []) ++ (c :: I₂))
      = (neg, c :: I₂) := by
    cases neg with
    | true => simpa using splitSign_neg (c :: I₂)
    | false => simpa using splitSign_digit hc I₂
  have htake : (c :: I₂).takeWhile Char.isDigit = c :: I₂ := takeWhile_all hIdig
  have hdrop : (c :: I₂).dropWhile Char.isDigit = [] := dropWhile_all hIdig
  simp only [parseDecimalChars, hsplit, htake, hdrop]
  simp [charsToNat_nil]

theorem mem_of_head_eq {x : Char} {l : List Char} (h : l.head? = some x) : x ∈ l := by
  cases l with
  | nil => cases h
  | cons a t =>
    simp only [List.head?_cons, Option.some.injEq] at h
    subst h
    exact List.mem_cons_self _ _

theorem getLast?_append_right {A B : List Char} (hB : B ≠ []) :
    (A ++ B).getLast? = B.getLast? := by
  rw [List.getLast?_eq_head?_reverse, List.getLast?_eq_head?_reverse, List.reverse_append]
  cases hrev : B.reverse with
  | nil =>
    exact absurd (by simpa using congrArg List.reverse hrev) hB
  | cons y ys => simp [hrev]

theorem strip_render_spec (neg : Bool) (ip fp : Nat) (hfp : fp < 10 ^ 9) :
    dropTrailing '.' (dropTrailing '0'
        ((if neg then ['-'] else []) ++ natToChars ip ++ '.' :: padLeftZeros 9 (natToChars fp))) ≠ [] ∧
    parseDecimalChars (dropTrailing '.' (dropTrailing '0'
        ((if neg then ['-'] else []) ++ natToChars ip ++ '.' :: padLeftZeros 9 (natToChars fp)))) =
      some (if neg then -((ip : ℚ) + (fp : ℚ) / 10 ^ 9)
            else (ip : ℚ) + (fp : ℚ) / 10 ^ 9) := by
  have hIdig := natToChars_all_digits ip
  have hIne := natToChars_ne_nil ip
  have hPval : charsToNat (padLeftZeros 9 (natToChars fp)) = fp := by
    rw [padLeftZeros, charsToNat_replicate_append, charsToNat_natToChars]
  have hPlen : (padLeftZeros 9 (natToChars fp)).length = 9 := by
    have := natToChars_length_le (by norm_num) hfp
    rw [padLeftZeros]
    simp only [List.length_append, List.length_replicate]
    omega
  have hPdig : ∀ c ∈ padLeftZeros 9 (natToChars fp), c.isDigit = true := by
    intro c hc
    rw [padLeftZeros] at hc
    rcases List.mem_append.mp hc with h | h
    · rcases List.eq_of_mem_replicate h with rfl; decide
    · exact natToChars_all_digits _ c h
  have hassoc : (if neg then ['-'] else []) ++ natToChars ip ++
        '.' :: padLeftZeros 9 (natToChars fp)
      = ((if neg then ['-'] else []) ++ natToChars ip) ++
        '.' :: padLeftZeros 9 (natToChars fp) := by
    rw [List.append_assoc]
  rw [hassoc, dropTrailing_append_cons (by decide : ('.' : Char) ≠ '0')]
  obtain ⟨t, hPdecomp⟩ := dropTrailing_decomp '0' (padLeftZeros 9 (natToChars fp))
  have hFdig : ∀ c ∈ dropTrailing '0' (padLeftZeros 9 (natToChars fp)), c.isDigit = true :=
    fun c hc => hPdig c (mem_dropTrailing hc)
  have hFval : charsToNat (dropTrailing '0' (padLeftZeros 9 (natToChars fp))) * 10 ^ t = fp := by
    conv_rhs => rw [← hPval, hPdecomp]
    rw [charsToNat_append_replicate]
  have hFlen : (dropTrailing '0' (padLeftZeros 9 (natToChars fp))).length + t = 9 := by
    have hl := congrArg List.length hPdecomp
    simp only [List.length_append, List.length_replicate] at hl
    omega
  have hIlast : ∀ x, ((if neg then ['-'] else []) ++ natToChars ip).getLast? = some x →
      x ≠ '.' := by
    intro x hx
    rw [getLast?_append_right hIne, List.getLast?_eq_head?_reverse] at hx
    have hxmem : x ∈ natToChars ip := by
      have := mem_of_head_eq hx
      simpa using this
    exact isDigit_ne (hIdig x hxmem) (by decide)
  by_cases hFnil : dropTrailing '0' (padLeftZeros 9 (natToChars fp)) = []
  · rw [hFnil]
    have hsingle : ((if neg then ['-'] else []) ++ natToChars ip) ++ '.' :: ([] : List Char)
        = ((if neg then ['-'] else []) ++ natToChars ip) ++ ['.'] := rfl
    rw [hsingle, dropTrailing_append_singleton, dropTrailing_eq_self hIlast]
    have hfp0 : fp = 0 := by
      rw [← hFval, hFnil, charsToNat_nil]
      ring
    constructor
    · simp [hIne]
    · rw [parseDecimalChars_digits_only neg (natToChars ip) hIne hIdig,
        charsToNat_natToChars, hfp0]
      norm_num
  · have hlast2 : ∀ x, (((if neg then ['-'] else []) ++ natToChars ip) ++
        '.' :: dropTrailing '0' (padLeftZeros 9 (natToChars fp))).getLast? = some x →
        x ≠ '.' := by
      intro x hx
      rw [getLast?_append_right (by simp)] at hx
      have hcons : ('.' :: dropTrailing '0' (padLeftZeros 9 (natToChars fp)))
          = ['.'] ++ dropTrailing '0' (padLeftZeros 9 (natToChars fp)) := rfl
      rw [hcons, getLast?_append_right hFnil, List.getLast?_eq_head?_reverse] at hx
      have hxmem : x ∈ dropTrailing '0' (padLeftZeros 9 (natToChars fp)) := by
        have := mem_of_head_eq hx
        simpa using this
      exact isDigit_ne (hFdig x hxmem) (by decide)
    rw [dropTrailing_eq_self hlast2]
    have hquot : (charsToNat (dropTrailing '0' (padLeftZeros 9 (natToChars fp))) : ℚ) /
        (10 : ℚ) ^ (dropTrailing '0' (padLeftZeros 9 (natToChars fp))).length
        = (fp : ℚ) / 10 ^ 9 := by
      have h10 : ((10 : ℚ) ^ (dropTrailing '0' (padLeftZeros 9 (natToChars fp))).length) ≠ 0 := by
        positivity
      have h10' : ((10 : ℚ) ^ 9) ≠ 0 := by positivity
      rw [div_eq_div_iff h10 h10']
      have hcast : (charsToNat (dropTrailing '0' (padLeftZeros 9 (natToChars fp))) : ℚ) *
          10 ^ t = (fp : ℚ) := by
        exact_mod_cast congrArg (fun n : ℕ => (n : ℚ)) hFval
      have hpow : (10 : ℚ) ^ 9 =
          (10 : ℚ) ^ (dropTrailing '0' (padLeftZeros 9 (natToChars fp))).length * 10 ^ t := by
        rw [← pow_add, hFlen]
      rw [hpow]
      linear_combination
        ((10 : ℚ) ^ (dropTrailing '0' (padLeftZeros 9 (natToChars fp))).length) * hcast
    constructor
    · simp
    · rw [parseDecimalChars_digits_dot neg (natToChars ip) _ hIne hIdig hFdig,
        charsToNat_natToChars, hquot]

theorem renderFixed_nine (q : ℚ) :
    renderFixed q 9 =
      (if q < 0 then ['-'] else []) ++
        natToChars ((roundHalfEven (|q| * (10 : ℚ) ^ 9)).toNat / 10 ^ 9) ++
        '.' :: padLeftZeros 9
          (natToChars ((roundHalfEven (|q| * (10 : ℚ) ^ 9)).toNat % 10 ^ 9)) := by
  simp only [renderFixed]
  norm_num

theorem nat_div_add_mod_cast (m : Nat) :
    ((m / 10 ^ 9 : ℕ) : ℚ) + ((m % 10 ^ 9 : ℕ) : ℚ) / 10 ^ 9 = (m : ℚ) / 10 ^ 9 := by
  have h := Nat.div_add_mod m (10 ^ 9)
  have h10 : ((10 : ℚ) ^ 9) ≠ 0 := by positivity
  field_simp
  have : ((10 ^ 9 * (m / 10 ^ 9) + m % 10 ^ 9 : ℕ) : ℚ) = (m : ℚ) := by
    exact_mod_cast congrArg (fun n : ℕ => (n : ℚ)) h
  push_cast at this
  linarith

theorem parseDecimal_format_decimal (q : ℚ) :
    parseDecimal (format_decimal q 9) =
      some (if q < 0
        then -(((roundHalfEven (|q| * (10 : ℚ) ^ 9)).toNat : ℚ) / 10 ^ 9)
        else ((roundHalfEven (|q| * (10 : ℚ) ^ 9)).toNat : ℚ) / 10 ^ 9) := by
  obtain ⟨hne, hparse⟩ := strip_render_spec (decide (q < 0))
    ((roundHalfEven (|q| * (10 : ℚ) ^ 9)).toNat / 10 ^ 9)
    ((roundHalfEven (|q| * (10 : ℚ) ^ 9)).toNat % 10 ^ 9)
    (Nat.mod_lt _ (by norm_num))
  simp only [decide_eq_true_eq] at hne hparse
  have hdot : '.' ∈ (if q < 0 then ['-'] else []) ++
      natToChars ((roundHalfEven (|q| * (10 : ℚ) ^ 9)).toNat / 10 ^ 9) ++
      '.' :: padLeftZeros 9
        (natToChars ((roundHalfEven (|q| * (10 : ℚ) ^ 9)).toNat % 10 ^ 9)) := by
    simp
  rw [show format_decimal q 9 = String.mk (dropTrailing '.' (dropTrailing '0'
      ((if q < 0 then ['-'] else []) ++
        natToChars ((roundHalfEven (|q| * (10 : ℚ) ^ 9)).toNat / 10 ^ 9) ++
        '.' :: padLeftZeros 9
          (natToChars ((roundHalfEven (|q| * (10 : ℚ) ^ 9)).toNat % 10 ^ 9))))) from ?_]
  · rw [parseDecimal]
    have hdata : (String.mk (dropTrailing '.' (dropTrailing '0'
        ((if q < 0 then ['-'] else []) ++
          natToChars ((roundHalfEven (|q| * (10 : ℚ) ^ 9)).toNat / 10 ^ 9) ++
          '.' :: padLeftZeros 9
            (natToChars ((roundHalfEven (|q| * (10 : ℚ) ^ 9)).toNat % 10 ^ 9)))))).data
        = dropTrailing '.' (dropTrailing '0'
        ((if q < 0 then ['-'] else []) ++
          natToChars ((roundHalfEven (|q| * (10 : ℚ) ^ 9)).toNat / 10 ^ 9) ++
          '.' :: padLeftZeros 9
            (natToChars ((roundHalfEven (|q| * (10 : ℚ) ^ 9)).toNat % 10 ^ 9)))) := rfl
    rw [hdata, hparse, nat_div_add_mod_cast]
  · rw [format_decimal]
    simp only [renderFixed_nine]
    rw [if_pos hdot, if_neg hne]

theorem roundHalfEven_zero : roundHalfEven 0 = 0 := by
  have hf : ratFloor 0 = 0 := by
    rw [ratFloor]
    norm_num
  rw [roundHalfEven, hf]
  norm_num

theorem format_decimal_zero : format_decimal 0 9 = "0" := by
  have habs : |(0 : ℚ)| * (10 : ℚ) ^ 9 = 0 := by simp
  have h0 : (roundHalfEven (|(0 : ℚ)| * (10 : ℚ) ^ 9)).toNat = 0 := by
    rw [habs, roundHalfEven_zero]
    rfl
  rw [format_decimal]
  simp only [renderFixed_nine, h0]
  norm_num
  decide

/-- C8: parsing the string produced by `format_decimal amount 9` (with the
`Decimal` literal parser) yields a value within `1e-9` absolute error of any
non-zero amount, and `format_decimal` applied to zero yields exactly `"0"`. -/
theorem c8_decimal_roundtrip :
    (∀ q : ℚ, q ≠ 0 →
      ∃ r : ℚ, parseDecimal (format_decimal q 9) = some r ∧ |r - q| ≤ 1 / 10 ^ 9)
    ∧ format_decimal 0 9 = "0" := by
  refine ⟨?_, format_decimal_zero⟩
  intro q _
  refine ⟨_, parseDecimal_format_decimal q, ?_⟩
  have hclose := roundHalfEven_close (|q| * (10 : ℚ) ^ 9)
  have habs : (0 : ℚ) ≤ |q| * (10 : ℚ) ^ 9 := by positivity
  have hnn := roundHalfEven_nonneg habs
  have hcast : (((roundHalfEven (|q| * (10 : ℚ) ^ 9)).toNat : ℚ))
      = ((roundHalfEven (|q| * (10 : ℚ) ^ 9) : ℤ) : ℚ) := by
    exact_mod_cast Int.toNat_of_nonneg hnn
  have hkey : abs (((roundHalfEven (|q| * (10 : ℚ) ^ 9) : ℤ) : ℚ) / 10 ^ 9 - abs q) ≤
      1 / 10 ^ 9 := by
    have heq : ((roundHalfEven (|q| * (10 : ℚ) ^ 9) : ℤ) : ℚ) / 10 ^ 9 - abs q
        = (((roundHalfEven (|q| * (10 : ℚ) ^ 9) : ℤ) : ℚ) - abs q * 10 ^ 9) / 10 ^ 9 := by
      ring
    rw [heq, abs_div, abs_of_pos (by positivity : (0 : ℚ) < 10 ^ 9)]
    have hstep : abs (((roundHalfEven (|q| * (10 : ℚ) ^ 9) : ℤ) : ℚ) - abs q * 10 ^ 9) /
        10 ^ 9 ≤ (1 / 2) / 10 ^ 9 := by gcongr
    have hlast : ((1 : ℚ) / 2) / 10 ^ 9 ≤ 1 / 10 ^ 9 := by norm_num
    linarith
  by_cases hneg : q < 0
  · rw [if_pos hneg, hcast]
    have habsq : abs q = -q := abs_of_neg hneg
    have hflip : -(((roundHalfEven (|q| * (10 : ℚ) ^ 9) : ℤ) : ℚ) / 10 ^ 9) - q
        = -(((roundHalfEven (|q| * (10 : ℚ) ^ 9) : ℤ) : ℚ) / 10 ^ 9 - abs q) := by
      rw [habsq]
      ring
    rw [hflip, abs_neg]
    exact hkey
  · rw [if_neg hneg, hcast]
    have habsq : abs q = q := abs_of_nonneg (not_lt.mp hneg)
    have hgoal : abs (((roundHalfEven (|q| * (10 : ℚ) ^ 9) : ℤ) : ℚ) / 10 ^ 9 - q)
        = abs (((roundHalfEven (|q| * (10 : ℚ) ^ 9) : ℤ) : ℚ) / 10 ^ 9 - abs q) := by
      rw [habsq]
    rw [hgoal]
    exact hkey

/-- Witness for C8 at the concrete amount 3. -/
theorem c8_decimal_roundtrip_witness :
    (3 : ℚ) ≠ 0 ∧
      ∃ r : ℚ, parseDecimal (format_decimal 3 9) = some r ∧ |r - 3| ≤ 1 / 10 ^ 9 :=
  ⟨by decide, c8_decimal_roundtrip.1 3 (by decide)⟩

/-! ### Aggregation lemmas -/

/-- The `in` total recorded for asset `a` (0 when the asset is absent). -/
def getIn : Changes → String → ℚ
  | [], _ => 0
  | (k, i, _) :: rest, a => if k = a then i else getIn rest a

/-- The `out` total recorded for asset `a` (0 when the asset is absent). -/
def getOut : Changes → String → ℚ
  | [], _ => 0
  | (k, _, o) :: rest, a => if k = a then o else getOut rest a

theorem getIn_addChange (cs : Changes) (key a : String) (dIn dOut : ℚ) :
    getIn (addChange cs key dIn dOut) a = getIn cs a + (if key = a then dIn else 0) := by
  induction cs with
  | nil =>
    by_cases h : key = a <;> simp [addChange, getIn, h]
  | cons e rest ih =>
    obtain ⟨k, i, o⟩ := e
    by_cases hk : k = key
    · subst hk
      by_cases ha : k = a
      · subst ha
        simp [addChange, getIn]
      · simp [addChange, getIn, ha]
    · by_cases ha : k = a
      · subst ha
        have hkey : key ≠ k := fun h => hk h.symm
        simp [addChange, getIn, hk, hkey]
      · simp [addChange, getIn, hk, ha, ih]

theorem getOut_addChange (cs : Changes) (key a : String) (dIn dOut : ℚ) :
    getOut (addChange cs key dIn dOut) a = getOut cs a + (if key = a then dOut else 0) := by
  induction cs with
  | nil =>
    by_cases h : key = a <;> simp [addChange, getOut, h]
  | cons e rest ih =>
    obtain ⟨k, i, o⟩ := e
    by_cases hk : k = key
    · subst hk
      by_cases ha : k = a
      · subst ha
        simp [addChange, getOut]
      · simp [addChange, getOut, ha]
    · by_cases ha : k = a
      · subst ha
        have hkey : key ≠ k := fun h => hk h.symm
        simp [addChange, getOut, hk, hkey]
      · simp [addChange, getOut, hk, ha, ih]

theorem processNative_err (address : String) (cs : Changes) (t : NativeTransfer)
    (h : pyInt (pyOr0 t.amount) = .error ()) :
    processNative address cs t = .error () := by
  simp [processNative, h]

theorem processNative_eq (address : String) (cs : Changes) (t : NativeTransfer)
    {amt : Int} (h : pyInt (pyOr0 t.amount) = .ok amt) :
    processNative address cs t = .ok (
      if amt < MIN_NATIVE_TRANSFER_LAMPORTS then cs
      else if t.fromUserAccount = t.toUserAccount ∧ t.toUserAccount = some address then cs
      else if t.toUserAccount = some address then
        addChange (if t.fromUserAccount = some address
          then addChange cs "SOL" 0 (amt : ℚ) else cs) "SOL" (amt : ℚ) 0
      else if t.fromUserAccount = some address then addChange cs "SOL" 0 (amt : ℚ)
      else cs) := by
  simp only [processNative, h]
  split_ifs <;> rfl

/-- C5: a native transfer leg whose parsed amount is strictly below 5000
lamports contributes to neither total of any asset (the state is unchanged);
a leg at or above 5000 that is not a self-transfer adds its full amount to
the corresponding SOL total (out when `from` is the subject, in when `to`
is), leaving every other asset's totals unchanged. -/
theorem c5_native_dust_threshold (address : String) (cs : Changes)
    (t : NativeTransfer) (amt : Int) (h : pyInt (pyOr0 t.amount) = .ok amt) :
    (amt < 5000 → processNative address cs t = .ok cs) ∧
    (5000 ≤ amt →
      ¬(t.fromUserAccount = t.toUserAccount ∧ t.toUserAccount = some address) →
      ∃ cs2, processNative address cs t = .ok cs2 ∧
        getOut cs2 "SOL" = getOut cs "SOL" +
          (if t.fromUserAccount = some address then (amt : ℚ) else 0) ∧
        getIn cs2 "SOL" = getIn cs "SOL" +
          (if t.toUserAccount = some address then (amt : ℚ) else 0) ∧
        ∀ a : String, a ≠ "SOL" → getIn cs2 a = getIn cs a ∧ getOut cs2 a = getOut cs a) := by
  constructor
  · intro hlt
    rw [processNative_eq address cs t h, if_pos (show amt < MIN_NATIVE_TRANSFER_LAMPORTS from hlt)]
  · intro hge hself
    have hnotlt : ¬ amt < MIN_NATIVE_TRANSFER_LAMPORTS := not_lt.mpr hge
    rw [processNative_eq address cs t h, if_neg hnotlt, if_neg hself]
    by_cases hf : t.fromUserAccount = some address <;>
      by_cases ht : t.toUserAccount = some address
    · exact absurd ⟨hf.trans ht.symm, ht⟩ hself
    · refine ⟨_, rfl, ?_, ?_, ?_⟩
      · simp [hf, ht, getOut_addChange]
      · simp [hf, ht, getIn_addChange]
      · intro a ha
        have ha' : "SOL" ≠ a := fun hh => ha hh.symm
        simp [hf, ht, getIn_addChange, getOut_addChange, ha']
    · refine ⟨_, rfl, ?_, ?_, ?_⟩
      · simp [hf, ht, getOut_addChange]
      · simp [hf, ht, getIn_addChange]
      · intro a ha
        have ha' : "SOL" ≠ a := fun hh => ha hh.symm
        simp [hf, ht, getIn_addChange, getOut_addChange, ha']
    · refine ⟨_, rfl, ?_, ?_, ?_⟩
      · simp [hf, ht]
      · simp [hf, ht]
      · intro a ha
        simp [hf, ht]

/-- Witness for C5: a 4000-lamport leg is dust and leaves the state unchanged. -/
theorem c5_native_dust_threshold_witness :
    pyInt (pyOr0 (some (.vInt 4000))) = .ok 4000 ∧ (4000 : Int) < 5000 ∧
    processNative "a" []
      { amount := some (.vInt 4000), fromUserAccount := some "a",
        toUserAccount := some "b" } = .ok [] :=
  ⟨rfl, by decide,
    (c5_native_dust_threshold "a" []
      { amount := some (.vInt 4000), fromUserAccount := some "a",
        toUserAccount := some "b" } 4000 rfl).1 (by decide)⟩

/-- C6: a transfer leg (native or token) whose `fromUserAccount` and
`toUserAccount` both equal the subject address leaves the aggregation state
unchanged, so it contributes to no asset's `in` or `out` total.  For native
legs the amount must parse (an unparsable amount raises before the
self-transfer check, see C2). -/
theorem c6_self_transfer_no_contribution (address : String) (cs : Changes) :
    (∀ (t : NativeTransfer) (amt : Int), pyInt (pyOr0 t.amount) = .ok amt →
      t.fromUserAccount = some address → t.toUserAccount = some address →
      processNative address cs t = .ok cs) ∧
    (∀ t : TokenTransfer, t.fromUserAccount = some address →
      t.toUserAccount = some address → processToken address cs t = cs) := by
  constructor
  · intro t amt h hf ht
    rw [processNative_eq address cs t h]
    by_cases hlt : amt < MIN_NATIVE_TRANSFER_LAMPORTS
    · rw [if_pos hlt]
    · rw [if_neg hlt, if_pos ⟨hf.trans ht.symm, ht⟩]
  · intro t hf ht
    by_cases ha : normalize_token_amount t.tokenAmount ≤ 0
    · simp [processToken, ha]
    · simp [processToken, ha, hf, ht]

/-- Witness for C6: a 9999-lamport native self-leg and a token self-leg on
the address `"a"` both leave the empty state unchanged. -/
theorem c6_self_transfer_no_contribution_witness :
    pyInt (pyOr0 (some (.vInt 9999))) = .ok 9999 ∧
    processNative "a" []
      { amount := some (.vInt 9999), fromUserAccount := some "a",
        toUserAccount := some "a" } = .ok [] ∧
    processToken "a" []
      { tokenAmount := some (.vStr "7"), fromUserAccount := some "a",
        toUserAccount := some "a", mint := some "m" } = [] :=
  ⟨rfl,
    (c6_self_transfer_no_contribution "a" []).1
      { amount := some (.vInt 9999), fromUserAccount := some "a",
        toUserAccount := some "a" } 9999 rfl rfl rfl,
    (c6_self_transfer_no_contribution "a" []).2
      { tokenAmount := some (.vStr "7"), fromUserAccount := some "a",
        toUserAccount := some "a", mint := some "m" } rfl rfl⟩

/-- C2 counterexample: a native transfer leg whose `amount` is the truthy but
unparsable string `"abc"` makes `int(...)` raise, and the exception escapes
`summarize_changes` — the transaction is not processed further, contradicting
the claim that malformed native amounts are silently dropped. -/
theorem c2_counterexample :
    truthy (.vStr "abc") = true ∧ parsePyInt "abc" = none ∧
    summarize_changes "a"
      { signature := none, timestamp := none, fee := none,
        nativeTransfers :=
          some [⟨some (.vStr "abc"), some "a", some "b"⟩],
        tokenTransfers := none } = .error () :=
  ⟨rfl, rfl, rfl⟩

theorem foldNative_error_of_mem (address : String) :
    ∀ (l : List NativeTransfer) (cs : Changes) (t : NativeTransfer),
      t ∈ l → pyInt (pyOr0 t.amount) = .error () →
      foldNative address cs l = .error () := by
  intro l
  induction l with
  | nil =>
    intro cs t ht
    cases ht
  | cons hd tl ih =>
    intro cs t ht herr
    rcases List.mem_cons.mp ht with rfl | htl
    · rw [foldNative, processNative_err address cs t herr]
    · rw [foldNative]
      rcases hh : processNative address cs hd with e | cs2
      · cases e
        rfl
      · exact ih cs2 t htl herr

/-- C2 amended: a token amount string that the `Decimal` constructor rejects
(after whitespace stripping and underscore removal; NaN and infinity
literals are accepted by the constructor and hence are not malformed in
this sense) normalizes to zero and the leg is silently skipped, with
aggregation continuing — a NaN amount, by contrast, constructs fine and
only raises later, at the `amount <= 0` comparison.  A native leg has no
fallback at all: a missing or falsy amount is read as `0` (and then dust-
filtered), while a truthy amount string that `int()` rejects raises, and
the exception escapes `summarize_changes`, aborting that transaction. -/
theorem c2_parse_fallback (address : String) (cs : Changes) :
    (∀ t : TokenTransfer, decConstruct (pyStr t.tokenAmount) = none →
      tokenLegStep address t = .ok .skip) ∧
    (decConstruct "NaN" = some .nan ∧
      tokenLegStep address
        { tokenAmount := some (.vStr "NaN"), fromUserAccount := some address,
          toUserAccount := none, mint := none } = .error ()) ∧
    (∀ t : NativeTransfer, pyOr0 t.amount = .vInt 0 →
      processNative address cs t = .ok cs) ∧
    (∀ t : NativeTransfer, pyInt (pyOr0 t.amount) = .error () →
      processNative address cs t = .error ()) ∧
    (∀ (tx : Tx) (t : NativeTransfer), t ∈ tx.nativeTransfers.getD [] →
      pyInt (pyOr0 t.amount) = .error () →
      summarize_changes address tx = .error ()) := by
  refine ⟨?_, ⟨rfl, rfl⟩, ?_, ?_, ?_⟩
  · intro t h
    have h0 : decNormalize t.tokenAmount = .fin 0 := by
      rw [decNormalize, h]
    rw [tokenLegStep, h0]
    have hle : decLeZero (.fin 0) = .ok true := by
      rw [decLeZero]
      norm_num
    rw [hle]
  · intro t h
    have hp : pyInt (pyOr0 t.amount) = .ok 0 := by rw [h]; rfl
    rw [processNative_eq address cs t hp]
    norm_num [MIN_NATIVE_TRANSFER_LAMPORTS]
  · intro t h
    exact processNative_err address cs t h
  · intro tx t ht herr
    rw [summarize_changes, foldNative_error_of_mem address _ [] t ht herr]

/-- Witness for C2-amended: an unparsable token amount is dropped without
raising; a native leg with a missing amount is read as `0` and dropped;
a native leg with the truthy unparsable amount `"oops"` raises and the
exception escapes `summarize_changes`. -/
theorem c2_parse_fallback_witness :
    decConstruct (pyStr (some (.vStr "bogus"))) = none ∧
    tokenLegStep "a"
      { tokenAmount := some (.vStr "bogus"), fromUserAccount := some "a",
        toUserAccount := some "b", mint := some "m" } = .ok .skip ∧
    pyOr0 (none : Option PyVal) = .vInt 0 ∧
    processNative "a" []
      { amount := none, fromUserAccount := some "a",
        toUserAccount := some "b" } = .ok [] ∧
    pyInt (pyOr0 (some (.vStr "oops"))) = .error () ∧
    summarize_changes "a"
      { signature := none, timestamp := none, fee := none,
        nativeTransfers := some [⟨some (.vStr "oops"), some "a", some "b"⟩],
        tokenTransfers := none } = .error () :=
  ⟨rfl,
    (c2_parse_fallback "a" []).1
      { tokenAmount := some (.vStr "bogus"), fromUserAccount := some "a",
        toUserAccount := some "b", mint := some "m" } rfl,
    rfl,
    (c2_parse_fallback "a" []).2.2.1
      { amount := none, fromUserAccount := some "a",
        toUserAccount := some "b" } rfl,
    rfl,
    (c2_parse_fallback "a" []).2.2.2.2
      { signature := none, timestamp := none, fee := none,
        nativeTransfers := some [⟨some (.vStr "oops"), some "a", some "b"⟩],
        tokenTransfers := none }
      ⟨some (.vStr "oops"), some "a", some "b"⟩
      (List.mem_singleton.mpr rfl) rfl⟩

theorem parseDecimal_five : parseDecimal "5" = some 5 := by
  have h := parseDecimalChars_digits_only false ['5'] (by decide) (by decide)
  simp only [Bool.false_eq_true, if_false, List.nil_append] at h
  rw [show charsToNat ['5'] = 5 from rfl] at h
  rw [parseDecimal, show ("5" : String).data = ['5'] from rfl, h]
  norm_num

/-- C9 counterexample: a counted token leg whose `mint` field is the empty
string is accumulated under the literal key `"UNKNOWN"`, not under its mint
identifier — so the asset key is not the leg's mint "regardless of the shape
of its mint field". -/
theorem c9_counterexample :
    ({ tokenAmount := some (.vStr "5"), fromUserAccount := some "a",
        toUserAccount := some "b", mint := some "" } : TokenTransfer).mint = some "" ∧
    processToken "a" []
      { tokenAmount := some (.vStr "5"), fromUserAccount := some "a",
        toUserAccount := some "b", mint := some "" } = [("UNKNOWN", (0 : ℚ), (5 : ℚ))] ∧
    ("UNKNOWN" : String) ≠ "" := by
  refine ⟨rfl, ?_, by decide⟩
  have h5 : normalize_token_amount (some (.vStr "5")) = 5 := by
    rw [normalize_token_amount, show pyStr (some (.vStr "5")) = "5" from rfl,
      parseDecimal_five]
  simp only [processToken, h5]
  norm_num [mintKey, addChange]
  decide

/-- C9 amended: a counted native leg accumulates only under the key `"SOL"`;
a token leg accumulates only under `mintKey t`, which is the leg's mint
identifier when that field is present and non-empty and the literal
`"UNKNOWN"` when the field is absent or the empty string. -/
theorem c9_asset_keys :
    (∀ (address : String) (cs : Changes) (t : NativeTransfer) (amt : Int),
      pyInt (pyOr0 t.amount) = .ok amt →
      ∀ cs2, processNative address cs t = .ok cs2 →
        ∀ a : String, a ≠ "SOL" →
          getIn cs2 a = getIn cs a ∧ getOut cs2 a = getOut cs a) ∧
    (∀ (address : String) (cs : Changes) (t : TokenTransfer),
      (∀ a : String, a ≠ mintKey t →
        getIn (processToken address cs t) a = getIn cs a ∧
        getOut (processToken address cs t) a = getOut cs a) ∧
      (0 < normalize_token_amount t.tokenAmount →
        ¬(t.fromUserAccount = t.toUserAccount ∧ t.toUserAccount = some address) →
        t.fromUserAccount = some address →
        getOut (processToken address cs t) (mintKey t)
          = getOut cs (mintKey t) + normalize_token_amount t.tokenAmount)) ∧
    (∀ t : TokenTransfer, t.mint = none ∨ t.mint = some "" → mintKey t = "UNKNOWN") ∧
    (∀ (t : TokenTransfer) (s : String), t.mint = some s → s ≠ "" → mintKey t = s) := by
  refine ⟨?_, ?_, ?_, ?_⟩
  · intro address cs t amt h cs2 h2 a ha
    have ha' : "SOL" ≠ a := fun hh => ha hh.symm
    rw [processNative_eq address cs t h] at h2
    split_ifs at h2 <;>
      (injection h2 with h2; subst h2; simp [getIn_addChange, getOut_addChange, ha'])
  · intro address cs t
    constructor
    · intro a ha
      have ha' : mintKey t ≠ a := fun hh => ha hh.symm
      by_cases h0 : normalize_token_amount t.tokenAmount ≤ 0
      · simp [processToken, h0]
      · by_cases hself : t.fromUserAccount = t.toUserAccount ∧
            t.toUserAccount = some address
        · simp [processToken, h0, hself]
        · by_cases hf : t.fromUserAccount = some address <;>
            by_cases ht : t.toUserAccount = some address <;>
            simp [processToken, h0, hself, hf, ht, getIn_addChange,
              getOut_addChange, ha']
    · intro hpos hself hf
      have h0 : ¬ normalize_token_amount t.tokenAmount ≤ 0 := not_le.mpr hpos
      by_cases ht : t.toUserAccount = some address
      · exact absurd ⟨hf.trans ht.symm, ht⟩ hself
      · simp [processToken, h0, hself, hf, ht, getOut_addChange]
  · intro t h
    rcases h with h | h <;> simp [mintKey, h]
  · intro t s h hs
    simp [mintKey, h, hs]

/-- Witness for C9-amended: a counted token out-leg with mint `"m"`
accumulates under `"m"` and leaves the asset `"other"` untouched. -/
theorem c9_asset_keys_witness :
    (0 : ℚ) < normalize_token_amount (some (.vStr "5")) ∧
    getOut (processToken "a" [] ⟨some (.vStr "5"), some "a", some "b", some "m"⟩)
      (mintKey ⟨some (.vStr "5"), some "a", some "b", some "m"⟩)
      = getOut ([] : Changes) (mintKey ⟨some (.vStr "5"), some "a", some "b", some "m"⟩)
        + normalize_token_amount (some (.vStr "5")) := by
  have h5 : normalize_token_amount (some (.vStr "5")) = 5 := by
    rw [normalize_token_amount, show pyStr (some (.vStr "5")) = "5" from rfl,
      parseDecimal_five]
  refine ⟨by rw [h5]; norm_num, ?_⟩
  exact ((c9_asset_keys.2.1 "a" [] ⟨some (.vStr "5"), some "a", some "b", some "m"⟩).2
    (by rw [h5]; norm_num) (by simp) rfl)

/-! ### Positivity and key-uniqueness invariant of the `changes` map -/

/-- Every recorded entry has non-negative totals, at least one of them
strictly positive. -/
def EntryPos (e : String × ℚ × ℚ) : Prop :=
  0 ≤ e.2.1 ∧ 0 ≤ e.2.2 ∧ (0 < e.2.1 ∨ 0 < e.2.2)

/-- Invariant of the accumulator: all entries positive, all keys distinct. -/
def ChangesInv (cs : Changes) : Prop :=
  (∀ e ∈ cs, EntryPos e) ∧ (cs.map Prod.fst).Nodup

theorem changesInv_nil : ChangesInv [] := by
  constructor
  · intro e he
    cases he
  · simp

theorem map_fst_addChange (cs : Changes) (key : String) (dIn dOut : ℚ) :
    (addChange cs key dIn dOut).map Prod.fst =
      if key ∈ cs.map Prod.fst then cs.map Prod.fst
      else cs.map Prod.fst ++ [key] := by
  induction cs with
  | nil => simp [addChange]
  | cons e rest ih =>
    obtain ⟨k, i, o⟩ := e
    by_cases hk : k = key
    · subst hk
      simp [addChange]
    · have hk2 : ¬ key = k := fun hh => hk hh.symm
      simp only [addChange, if_neg hk, List.map_cons, ih]
      by_cases hm : key ∈ rest.map Prod.fst
      · simp [hm, hk2]
      · simp [hm, hk2]

theorem mem_map_fst_addChange {cs : Changes} {key a : String} {dIn dOut : ℚ} :
    a ∈ (addChange cs key dIn dOut).map Prod.fst ↔
      a ∈ cs.map Prod.fst ∨ a = key := by
  rw [map_fst_addChange]
  by_cases hm : key ∈ cs.map Prod.fst
  · rw [if_pos hm]
    constructor
    · exact Or.inl
    · rintro (h | rfl)
      · exact h
      · exact hm
  · rw [if_neg hm]
    simp

theorem addChange_inv {cs : Changes} {key : String} {dIn dOut : ℚ}
    (h : ChangesInv cs) (h1 : 0 ≤ dIn) (h2 : 0 ≤ dOut)
    (h3 : 0 < dIn ∨ 0 < dOut) : ChangesInv (addChange cs key dIn dOut) := by
  induction cs with
  | nil =>
    constructor
    · intro e he
      rw [addChange] at he
      rcases List.mem_singleton.mp he with rfl
      exact ⟨h1, h2, h3⟩
    · simp [addChange]
  | cons e rest ih =>
    obtain ⟨k, i, o⟩ := e
    obtain ⟨hpos, hnd⟩ := h
    have hposk := hpos (k, i, o) (List.mem_cons_self _ _)
    obtain ⟨q1, q2, q3⟩ := hposk
    dsimp only at q1 q2 q3
    have hrest : ChangesInv rest :=
      ⟨fun e he => hpos e (List.mem_cons_of_mem _ he), (List.nodup_cons.mp hnd).2⟩
    by_cases hk : k = key
    · subst hk
      constructor
      · intro e he
        rw [addChange, if_pos rfl] at he
        rcases List.mem_cons.mp he with rfl | he2
        · refine ⟨?_, ?_, ?_⟩ <;> dsimp only
          · linarith
          · linarith
          · rcases q3 with q | q
            · exact Or.inl (by linarith)
            · exact Or.inr (by linarith)
        · exact hpos _ (List.mem_cons_of_mem _ he2)
      · rw [addChange, if_pos rfl]
        simpa using hnd
    · have ihr := ih hrest
      constructor
      · intro e he
        rw [addChange, if_neg hk] at he
        rcases List.mem_cons.mp he with rfl | he2
        · exact ⟨q1, q2, q3⟩
        · exact ihr.1 _ he2
      · rw [addChange, if_neg hk]
        rw [List.map_cons, List.nodup_cons]
        refine ⟨?_, ihr.2⟩
        intro hmem
        rcases mem_map_fst_addChange.mp hmem with hmem | rfl
        · exact (List.nodup_cons.mp hnd).1 hmem
        · exact hk rfl

theorem processNative_inv {address : String} {cs cs2 : Changes}
    {t : NativeTransfer} (h : processNative address cs t = .ok cs2)
    (hinv : ChangesInv cs) : ChangesInv cs2 := by
  rcases hp : pyInt (pyOr0 t.amount) with e | amt
  · rw [processNative_err address cs t (by cases e; exact hp)] at h
    cases h
  · rw [processNative_eq address cs t hp] at h
    by_cases h1 : amt < MIN_NATIVE_TRANSFER_LAMPORTS
    · rw [if_pos h1] at h
      injection h with h
      subst h
      exact hinv
    · rw [if_neg h1] at h
      have hq : (0 : ℚ) < (amt : ℚ) := by
        rw [not_lt, MIN_NATIVE_TRANSFER_LAMPORTS] at h1
        exact_mod_cast lt_of_lt_of_le (by norm_num : (0 : ℤ) < 5000) h1
      by_cases h2 : t.fromUserAccount = t.toUserAccount ∧
          t.toUserAccount = some address
      · rw [if_pos h2] at h
        injection h with h
        subst h
        exact hinv
      · rw [if_neg h2] at h
        by_cases h3 : t.toUserAccount = some address
        · rw [if_pos h3] at h
          by_cases h4 : t.fromUserAccount = some address
          · rw [if_pos h4] at h
            injection h with h
            subst h
            exact addChange_inv (addChange_inv hinv le_rfl hq.le (Or.inr hq))
              hq.le le_rfl (Or.inl hq)
          · rw [if_neg h4] at h
            injection h with h
            subst h
            exact addChange_inv hinv hq.le le_rfl (Or.inl hq)
        · rw [if_neg h3] at h
          by_cases h4 : t.fromUserAccount = some address
          · rw [if_pos h4] at h
            injection h with h
            subst h
            exact addChange_inv hinv le_rfl hq.le (Or.inr hq)
          · rw [if_neg h4] at h
            injection h with h
            subst h
            exact hinv

theorem processToken_inv {address : String} {cs : Changes} {t : TokenTransfer}
    (hinv : ChangesInv cs) : ChangesInv (processToken address cs t) := by
  by_cases h0 : normalize_token_amount t.tokenAmount ≤ 0
  · simpa [processToken, h0] using hinv
  · have hpos : 0 < normalize_token_amount t.tokenAmount := not_le.mp h0
    by_cases hself : t.fromUserAccount = t.toUserAccount ∧
        t.toUserAccount = some address
    · simpa [processToken, h0, hself] using hinv
    · simp only [processToken]
      rw [if_neg h0, if_neg hself]
      by_cases hf : t.fromUserAccount = some address
      · rw [if_pos hf]
        by_cases ht : t.toUserAccount = some address
        · rw [if_pos ht]
          exact addChange_inv (addChange_inv hinv le_rfl hpos.le (Or.inr hpos))
            hpos.le le_rfl (Or.inl hpos)
        · rw [if_neg ht]
          exact addChange_inv hinv le_rfl hpos.le (Or.inr hpos)
      · rw [if_neg hf]
        by_cases ht : t.toUserAccount = some address
        · rw [if_pos ht]
          exact addChange_inv hinv hpos.le le_rfl (Or.inl hpos)
        · rw [if_neg ht]
          exact hinv

theorem foldNative_inv (address : String) :
    ∀ (l : List NativeTransfer) (cs cs2 : Changes), ChangesInv cs →
      foldNative address cs l = .ok cs2 → ChangesInv cs2 := by
  intro l
  induction l with
  | nil =>
    intro cs cs2 hinv h
    rw [foldNative] at h
    injection h with h
    subst h
    exact hinv
  | cons t ts ih =>
    intro cs cs2 hinv h
    rw [foldNative] at h
    rcases hp : processNative address cs t with e | cs1
    · rw [hp] at h
      cases h
    · rw [hp] at h
      exact ih cs1 cs2 (processNative_inv hp hinv) h

theorem foldTokens_inv (address : String) :
    ∀ (l : List TokenTransfer) (cs : Changes), ChangesInv cs →
      ChangesInv (l.foldl (processToken address) cs) := by
  intro l
  induction l with
  | nil =>
    intro cs h
    simpa using h
  | cons t ts ih =>
    intro cs h
    rw [List.foldl_cons]
    exact ih _ (processToken_inv h)

theorem summarize_changes_inv {address : String} {tx : Tx} {cs : Changes}
    (h : summarize_changes address tx = .ok cs) : ChangesInv cs := by
  rw [summarize_changes] at h
  rcases hn : foldNative address [] (tx.nativeTransfers.getD []) with e | cs1
  · rw [hn] at h
    cases h
  · rw [hn] at h
    injection h with h
    subst h
    exact foldTokens_inv address _ cs1
      (foldNative_inv address _ [] cs1 changesInv_nil hn)

theorem rowOf_eq_some_of {d s : String} {fee : ℚ} {e : String × ℚ × ℚ}
    (hcond : ¬(e.2.1 = 0 ∧ e.2.2 = 0)) :
    ∃ r, rowOf d s fee e = some r ∧ r.Asset = e.1 := by
  rw [rowOf, if_neg hcond]
  exact ⟨_, rfl, rfl⟩

theorem filterMap_rowOf_assets (d s : String) (fee : ℚ) :
    ∀ l : Changes, (∀ e ∈ l, 0 < e.2.1 ∨ 0 < e.2.2) →
      (l.filterMap (rowOf d s fee)).map Row.Asset = l.map Prod.fst := by
  intro l
  induction l with
  | nil => simp
  | cons e rest ih =>
    intro h
    have he := h e (List.mem_cons_self _ _)
    have hcond : ¬(e.2.1 = 0 ∧ e.2.2 = 0) := by
      rintro ⟨h1, h2⟩
      rcases he with hh | hh
      · rw [h1] at hh
        exact lt_irrefl 0 hh
      · rw [h2] at hh
        exact lt_irrefl 0 hh
    obtain ⟨r, hrw, hasset⟩ := @rowOf_eq_some_of d s fee _ hcond
    simp only [List.filterMap_cons, hrw, List.map_cons, hasset]
    rw [ih (fun e2 he2 => h e2 (List.mem_cons_of_mem _ he2))]

/-- C7: on a successful run, every aggregated asset has a strictly positive
in or out total (so no emitted row has both totals zero), the emitted rows
carry exactly the aggregated asset keys in order and without duplicates
(exactly one row per asset), and a row for an asset exists precisely when
some aggregate entry for it has a strictly positive in or out total. -/
theorem c7_rows_iff_positive (address : String) (tx : Tx) (cs : Changes)
    (rows : List Row) (hs : summarize_changes address tx = .ok cs)
    (hr : iter_rows address tx = .ok rows) :
    (∀ e ∈ cs, 0 < e.2.1 ∨ 0 < e.2.2) ∧
    rows.map Row.Asset = cs.map Prod.fst ∧
    (rows.map Row.Asset).Nodup ∧
    (∀ a : String, a ∈ rows.map Row.Asset ↔
      ∃ p : ℚ × ℚ, (a, p) ∈ cs ∧ (0 < p.1 ∨ 0 < p.2)) := by
  have hinv := summarize_changes_inv hs
  have hposall : ∀ e ∈ cs, 0 < e.2.1 ∨ 0 < e.2.2 := fun e he => (hinv.1 e he).2.2
  rcases hfee : pyInt (pyOr0 tx.fee) with e | feeRaw
  · simp only [iter_rows, hfee] at hr
    cases hr
  · simp only [iter_rows, hfee, hs] at hr
    by_cases hnil : cs = []
    · rw [if_pos hnil] at hr
      injection hr with hr
      subst hr
      subst hnil
      refine ⟨hposall, by simp, by simp, ?_⟩
      intro a
      simp
    · rw [if_neg hnil] at hr
      injection hr with hr
      subst hr
      have hmap := filterMap_rowOf_assets
        (match tx.timestamp with
          | some ts => format_timestamp ts
          | none => "")
        (tx.signature.getD "") (lamports_to_sol feeRaw) cs hposall
      refine ⟨hposall, hmap, ?_, ?_⟩
      · rw [hmap]
        exact hinv.2
      · intro a
        rw [hmap]
        constructor
        · intro ha
          rcases List.mem_map.mp ha with ⟨e2, he2, rfl⟩
          exact ⟨e2.2, by simpa using he2, hposall e2 he2⟩
        · rintro ⟨p, hp, hpos⟩
          exact List.mem_map.mpr ⟨(a, p), hp, rfl⟩

/-- Witness for C7: a concrete transaction with one counted native leg. -/
theorem c7_rows_iff_positive_witness :
    ∃ cs rows,
      summarize_changes "a"
        { signature := some "sig", timestamp := none, fee := some (.vInt 5000),
          nativeTransfers := some [⟨some (.vInt 10000000), some "a", some "b"⟩],
          tokenTransfers := none } = .ok cs ∧
      iter_rows "a"
        { signature := some "sig", timestamp := none, fee := some (.vInt 5000),
          nativeTransfers := some [⟨some (.vInt 10000000), some "a", some "b"⟩],
          tokenTransfers := none } = .ok rows ∧
      rows.map Row.Asset = cs.map Prod.fst :=
  ⟨_, _, rfl, rfl,
    (c7_rows_iff_positive "a"
      { signature := some "sig", timestamp := none, fee := some (.vInt 5000),
        nativeTransfers := some [⟨some (.vInt 10000000), some "a", some "b"⟩],
        tokenTransfers := none } _ _ rfl rfl).2.1⟩

/-! ### Concrete formatting values for the end-to-end example -/

theorem ratFloor_natCast (n : ℕ) : ratFloor (n : ℚ) = n := by
  rw [ratFloor, Rat.num_natCast, Rat.den_natCast]
  exact Int.ediv_one (n : ℤ)

theorem roundHalfEven_natCast (n : ℕ) : roundHalfEven (n : ℚ) = n := by
  rw [roundHalfEven, ratFloor_natCast]
  norm_num

theorem format_decimal_hundredth : format_decimal (1 / 100 : ℚ) 9 = "0.01" := by
  have h1 : |(1 / 100 : ℚ)| * (10 : ℚ) ^ 9 = ((10000000 : ℕ) : ℚ) := by
    rw [abs_of_pos (show (0 : ℚ) < 1 / 100 by norm_num)]
    norm_num
  have h2 : (roundHalfEven (|(1 / 100 : ℚ)| * (10 : ℚ) ^ 9)).toNat = 10000000 := by
    rw [h1, roundHalfEven_natCast]
    rfl
  have h3 : ¬ ((1 / 100 : ℚ) < 0) := by norm_num
  rw [format_decimal]
  simp only [renderFixed_nine, h2, if_neg h3]
  decide

theorem format_decimal_fee : format_decimal (1 / 200000 : ℚ) 9 = "0.000005" := by
  have h1 : |(1 / 200000 : ℚ)| * (10 : ℚ) ^ 9 = ((5000 : ℕ) : ℚ) := by
    rw [abs_of_pos (show (0 : ℚ) < 1 / 200000 by norm_num)]
    norm_num
  have h2 : (roundHalfEven (|(1 / 200000 : ℚ)| * (10 : ℚ) ^ 9)).toNat = 5000 := by
    rw [h1, roundHalfEven_natCast]
    rfl
  have h3 : ¬ ((1 / 200000 : ℚ) < 0) := by norm_num
  rw [format_decimal]
  simp only [renderFixed_nine, h2, if_neg h3]
  decide

theorem ratTruncInt_zero : ratTruncInt 0 = 0 := by
  rw [ratTruncInt]
  norm_num

theorem ratTruncInt_intCast (n : ℤ) : ratTruncInt ((n : ℤ) : ℚ) = n := by
  rw [ratTruncInt, Rat.num_intCast, Rat.den_intCast]
  exact_mod_cast Int.tdiv_one n

/-- C1: for any subject address, a counterparty different from it, any
signature and timestamp, and no token transfers, a transaction with exactly
one native transfer of 10,000,000 lamports from the subject to the
counterparty and a fee of 5,000 lamports produces exactly one row:
Asset `"SOL"`, Amount_IN `"0"`, Amount_OUT `"0.01"`, Fee (SOL) `"0.000005"`. -/
theorem c1_end_to_end (addr other : String) (hne : other ≠ addr)
    (sig : Option String) (ts : Option Int) (tok : Option (List TokenTransfer))
    (htok : tok.getD [] = []) :
    ∃ row : Row,
      iter_rows addr
        { signature := sig, timestamp := ts, fee := some (.vInt 5000),
          nativeTransfers := some [⟨some (.vInt 10000000), some addr, some other⟩],
          tokenTransfers := tok } = .ok [row] ∧
      row.Asset = "SOL" ∧ row.Amount_IN = "0" ∧ row.Amount_OUT = "0.01" ∧
      row.FeeSOL = "0.000005" := by
  have hp : pyInt (pyOr0 (some (PyVal.vInt 10000000))) = .ok 10000000 := rfl
  have hto : ¬ ((some other : Option String) = some addr) := by
    intro h
    exact hne (Option.some.inj h)
  have hself : ¬ ((some addr : Option String) = some other ∧
      (some other : Option String) = some addr) := fun h => hto h.2
  have hone : processNative addr [] ⟨some (.vInt 10000000), some addr, some other⟩
      = .ok [("SOL", 0, ((10000000 : Int) : ℚ))] := by
    rw [processNative_eq addr [] _ hp]
    dsimp only
    rw [if_neg (by decide : ¬ ((10000000 : Int) < MIN_NATIVE_TRANSFER_LAMPORTS)),
      if_neg hself, if_neg hto, if_pos rfl]
    rfl
  have hfold : foldNative addr [] [⟨some (.vInt 10000000), some addr, some other⟩]
      = .ok [("SOL", 0, ((10000000 : Int) : ℚ))] := by
    rw [foldNative, hone]
    rfl
  have hsum : summarize_changes addr
      { signature := sig, timestamp := ts, fee := some (.vInt 5000),
        nativeTransfers := some [⟨some (.vInt 10000000), some addr, some other⟩],
        tokenTransfers := tok } = .ok [("SOL", 0, ((10000000 : Int) : ℚ))] := by
    rw [summarize_changes]
    dsimp only [Option.getD]
    rw [hfold]
    rcases tok with _ | l
    · rfl
    · have hl : l = [] := by simpa using htok
      subst hl
      rfl
  have hcne : ¬ (((0 : ℚ) = 0) ∧ (((10000000 : Int) : ℚ) = 0)) := by
    rintro ⟨-, h⟩
    norm_num at h
  have hl0 : lamports_to_sol 0 = 0 := by
    rw [lamports_to_sol]
    norm_num
  have hl1 : lamports_to_sol 10000000 = 1 / 100 := by
    rw [lamports_to_sol]
    norm_num
  have hl2 : lamports_to_sol 5000 = 1 / 200000 := by
    rw [lamports_to_sol]
    norm_num
  have hfee : pyInt (pyOr0 (some (PyVal.vInt 5000))) = .ok 5000 := rfl
  refine ⟨{ Date := (match ts with | some t => format_timestamp t | none => ""),
            TransactionHash := sig.getD "", Asset := "SOL", Amount_IN := "0",
            Amount_OUT := "0.01", FeeSOL := "0.000005" }, ?_, rfl, rfl, rfl, rfl⟩
  rw [iter_rows]
  dsimp only
  rw [hfee]
  dsimp only
  rw [hsum]
  dsimp only
  rw [if_neg (by simp :
    ¬ ([("SOL", (0 : ℚ), ((10000000 : Int) : ℚ))] = ([] : Changes)))]
  simp only [List.filterMap_cons, List.filterMap_nil]
  rw [rowOf]
  dsimp only
  rw [if_neg hcne, if_pos rfl]
  dsimp only
  rw [ratTruncInt_zero, ratTruncInt_intCast, hl0, hl1, hl2, format_decimal_zero,
    format_decimal_hundredth, format_decimal_fee]
  cases ts <;> rfl

/-- Witness for C1 at a concrete address pair. -/
theorem c1_end_to_end_witness :
    ("b" : String) ≠ "a" ∧ (none : Option (List TokenTransfer)).getD [] = [] ∧
    ∃ row : Row,
      iter_rows "a"
        { signature := some "s", timestamp := none, fee := some (.vInt 5000),
          nativeTransfers := some [⟨some (.vInt 10000000), some "a", some "b"⟩],
          tokenTransfers := none } = .ok [row] ∧
      row.Asset = "SOL" ∧ row.Amount_IN = "0" ∧ row.Amount_OUT = "0.01" ∧
      row.FeeSOL = "0.000005" :=
  ⟨by decide, rfl, c1_end_to_end "a" "b" (by decide) (some "s") none none rfl⟩

/-! ### Pagination helper lemmas -/

/-- The combined per-entry validity function: the two comprehensions of
`fetch_signatures` keep exactly the dict entries with a truthy signature. -/
def entryValidSig : SigEntry → Option String
  | .dict (some s) => if s = "" then none else some s
  | .dict none => none
  | .notDict => none

theorem keepTruthy_raw_eq (raw : List SigEntry) :
    keepTruthySigs (rawSignatureFields raw) = raw.filterMap entryValidSig := by
  induction raw with
  | nil => rfl
  | cons e rest ih =>
    cases e with
    | notDict =>
      have h1 : rawSignatureFields (SigEntry.notDict :: rest) =
          rawSignatureFields rest := by
        simp [rawSignatureFields]
      rw [h1, ih]
      simp [List.filterMap_cons, entryValidSig]
    | dict s =>
      have h1 : rawSignatureFields (SigEntry.dict s :: rest) =
          s :: rawSignatureFields rest := by
        simp [rawSignatureFields]
      rw [h1]
      cases s with
      | none =>
        have h2 : keepTruthySigs (none :: rawSignatureFields rest) =
            keepTruthySigs (rawSignatureFields rest) := by
          simp [keepTruthySigs, List.filterMap_cons]
        rw [h2, ih]
        simp [List.filterMap_cons, entryValidSig]
      | some str =>
        by_cases hs : str = ""
        · subst hs
          have h2 : keepTruthySigs (some "" :: rawSignatureFields rest) =
              keepTruthySigs (rawSignatureFields rest) := by
            simp [keepTruthySigs, List.filterMap_cons]
          rw [h2, ih]
          simp [List.filterMap_cons, entryValidSig]
        · have h2 : keepTruthySigs (some str :: rawSignatureFields rest) =
              str :: keepTruthySigs (rawSignatureFields rest) := by
            simp [keepTruthySigs, List.filterMap_cons, hs]
          rw [h2, ih]
          simp [List.filterMap_cons, entryValidSig, hs]

theorem fetch_signatures_fst (raw : List SigEntry) (limit : Nat) :
    (fetch_signatures raw limit).1 = raw.filterMap entryValidSig := by
  rw [fetch_signatures]
  exact keepTruthy_raw_eq raw

theorem fetch_signatures_snd (raw : List SigEntry) (limit : Nat) :
    (fetch_signatures raw limit).2 =
      (if raw.length = limit ∧ (fetch_signatures raw limit).1 ≠ []
       then (fetch_signatures raw limit).1.getLast? else none) := rfl

theorem getLast?_ne_none {α : Type} {l : List α} (h : l ≠ []) :
    l.getLast? ≠ none := by
  rw [List.getLast?_eq_head?_reverse]
  rcases hrev : l.reverse with _ | ⟨x, m⟩
  · exact absurd (by simpa using congrArg List.reverse hrev) h
  · simp [hrev]

theorem fetch_signatures_cursor_iff (raw : List SigEntry) (limit : Nat) :
    (fetch_signatures raw limit).2 ≠ none ↔
      raw.length = limit ∧ (fetch_signatures raw limit).1 ≠ [] := by
  rw [fetch_signatures_snd]
  by_cases hcond : raw.length = limit ∧ (fetch_signatures raw limit).1 ≠ []
  · rw [if_pos hcond]
    exact ⟨fun _ => hcond, fun _ => getLast?_ne_none hcond.2⟩
  · rw [if_neg hcond]
    simp [hcond]

theorem fetch_signatures_cursor_last {raw : List SigEntry} {limit : Nat}
    {c : String} (h : (fetch_signatures raw limit).2 = some c) :
    (fetch_signatures raw limit).1.getLast? = some c := by
  rw [fetch_signatures_snd] at h
  by_cases hcond : raw.length = limit ∧ (fetch_signatures raw limit).1 ≠ []
  · rwa [if_pos hcond] at h
  · rw [if_neg hcond] at h
    cases h

theorem processPage_stop_of_short (txApi : List String → List TxRec)
    (limit : Nat) (maxTx : Option Nat) (acc : List TxRec) (raw : List SigEntry)
    (h : (fetch_signatures raw limit).1.length < limit ∨
      (fetch_signatures raw limit).2 = none) :
    (processPage txApi limit maxTx acc raw).isStop := by
  simp only [processPage]
  by_cases hnil : (fetch_signatures raw limit).1 = []
  · rw [if_pos hnil]
    trivial
  · rw [if_neg hnil]
    rcases maxTx with _ | m
    · dsimp only
      rcases h with h | h
      · rw [if_pos h]
        trivial
      · by_cases hlt : (fetch_signatures raw limit).1.length < limit
        · rw [if_pos hlt]
          trivial
        · rw [if_neg hlt, h]
          trivial
    · dsimp only
      by_cases hm : m ≤ (acc ++ (fetch_transactions_with_retries txApi
          (fetch_signatures raw limit).1 3).collected).length
      · rw [if_pos hm]
        trivial
      · rw [if_neg hm]
        rcases h with h | h
        · rw [if_pos h]
          trivial
        · by_cases hlt : (fetch_signatures raw limit).1.length < limit
          · rw [if_pos hlt]
            trivial
          · rw [if_neg hlt, h]
            trivial

theorem processPage_goNext (txApi : List String → List TxRec) (limit : Nat)
    (acc : List TxRec) (raw : List SigEntry) (c : String)
    (hc : (fetch_signatures raw limit).2 = some c)
    (hlen : ¬ (fetch_signatures raw limit).1.length < limit) :
    processPage txApi limit none acc raw =
      .goNext (acc ++ (fetch_transactions_with_retries txApi
        (fetch_signatures raw limit).1 3).collected) c := by
  have hne : (fetch_signatures raw limit).1 ≠ [] :=
    ((fetch_signatures_cursor_iff raw limit).mp (by rw [hc]; exact Option.some_ne_none c)).2
  simp only [processPage]
  rw [if_neg hne, if_neg hlen, hc]

/-- C3: the next cursor is present iff the raw page size equals the limit
and at least one valid signature survives filtering, and it then equals the
last filtered signature; in the orchestration loop a page whose filtered
signature list is shorter than the limit, or with no cursor, stops
pagination, while (with no transaction cap) a full page with a cursor
continues from that cursor. -/
theorem c3_pagination_termination (raw : List SigEntry) (limit : Nat)
    (txApi : List String → List TxRec) (maxTx : Option Nat) (acc : List TxRec) :
    ((fetch_signatures raw limit).2 ≠ none ↔
      raw.length = limit ∧ (fetch_signatures raw limit).1 ≠ []) ∧
    (∀ c, (fetch_signatures raw limit).2 = some c →
      (fetch_signatures raw limit).1.getLast? = some c) ∧
    ((fetch_signatures raw limit).1.length < limit ∨
        (fetch_signatures raw limit).2 = none →
      (processPage txApi limit maxTx acc raw).isStop) ∧
    (∀ c, (fetch_signatures raw limit).2 = some c →
      ¬ (fetch_signatures raw limit).1.length < limit →
      processPage txApi limit none acc raw =
        .goNext (acc ++ (fetch_transactions_with_retries txApi
          (fetch_signatures raw limit).1 3).collected) c) :=
  ⟨fetch_signatures_cursor_iff raw limit,
    fun _ hc => fetch_signatures_cursor_last hc,
    processPage_stop_of_short txApi limit maxTx acc raw,
    fun c hc hlen => processPage_goNext txApi limit acc raw c hc hlen⟩

/-- Witness for C3 on concrete pages: a short page (1 entry, limit 2) has no
cursor and stops; a full page with a cursor continues. -/
theorem c3_pagination_termination_witness :
    ((fetch_signatures [SigEntry.dict (some "x")] 2).1.length < 2 ∨
      (fetch_signatures [SigEntry.dict (some "x")] 2).2 = none) ∧
    (processPage (fun _ => []) 2 none []
      [SigEntry.dict (some "x")]).isStop ∧
    (fetch_signatures [SigEntry.dict (some "x"), SigEntry.dict (some "y")] 2).2
      = some "y" ∧
    ¬ (fetch_signatures
      [SigEntry.dict (some "x"), SigEntry.dict (some "y")] 2).1.length < 2 ∧
    processPage (fun _ => []) 2 none []
        [SigEntry.dict (some "x"), SigEntry.dict (some "y")] =
      .goNext ([] ++ (fetch_transactions_with_retries (fun _ => [])
        (fetch_signatures
          [SigEntry.dict (some "x"), SigEntry.dict (some "y")] 2).1 3).collected)
        "y" :=
  ⟨Or.inl (by decide),
    (c3_pagination_termination [SigEntry.dict (some "x")] 2 (fun _ => []) none
      []).2.2.1 (Or.inl (by decide)),
    by decide,
    by decide,
    (c3_pagination_termination
      [SigEntry.dict (some "x"), SigEntry.dict (some "y")] 2 (fun _ => []) none
      []).2.2.2 "y" (by decide) (by decide)⟩

/-- C4 counterexample: the empty requested-signature list vacuously
satisfies "never appears in any API response", yet the loop hits its
`if not remaining: break` before the first fetch — 0 fetch attempts are
performed, not exactly 3, nothing is collected and no warning fires. -/
theorem c4_counterexample :
    (∀ (rem : List String) (s : String), s ∈ ([] : List String) →
      s ∉ returnedSignatures ((fun _ => ([] : List TxRec)) rem)) ∧
    (fetch_transactions_with_retries (fun _ => []) [] 3).attempts = 0 ∧
    (fetch_transactions_with_retries (fun _ => []) [] 3).attempts ≠ 3 ∧
    (fetch_transactions_with_retries (fun _ => []) [] 3).collected = [] ∧
    (fetch_transactions_with_retries (fun _ => []) [] 3).missing = [] := by
  refine ⟨?_, rfl, by decide, rfl, rfl⟩
  intro rem s hs
  cases hs

/-- C4 amended: for every NON-EMPTY signature list none of whose elements
ever appears in any response (responses being well-formed lists, as the
oracle type enforces — the source raises inside the transport helper
otherwise), `fetch_transactions_with_retries` with `max_attempts = 3`
performs exactly 3 fetch calls, then stops, ends with a non-empty missing
set equal to the requested signatures — so the warning `print` fires with
exactly those, and nothing is raised (the function is total) — and returns
the three response pages collected so far. -/
theorem c4_retry_bound (api : List String → List TxRec)
    (signatures : List String) (hne : signatures ≠ [])
    (hmiss : ∀ (rem : List String) (s : String), s ∈ signatures →
      s ∉ returnedSignatures (api rem)) :
    (fetch_transactions_with_retries api signatures 3).attempts = 3 ∧
    (fetch_transactions_with_retries api signatures 3).missing = signatures ∧
    (fetch_transactions_with_retries api signatures 3).missing ≠ [] ∧
    (fetch_transactions_with_retries api signatures 3).collected =
      api signatures ++ api signatures ++ api signatures := by
  have hfilter : ∀ rem, signatures.filter
      (fun s => !(returnedSignatures (api rem)).contains s) = signatures := by
    intro rem
    apply List.filter_eq_self.mpr
    intro s hs
    simpa using hmiss rem s hs
  have h3 : fetch_transactions_with_retries api signatures 3 =
      ⟨(([] ++ api signatures) ++ api signatures) ++ api signatures,
        signatures, 3⟩ := by
    rw [fetch_transactions_with_retries]
    rw [retriesAux, if_neg hne]
    dsimp only
    rw [hfilter, retriesAux, if_neg hne]
    dsimp only
    rw [hfilter, retriesAux, if_neg hne]
    dsimp only
    rw [hfilter, retriesAux]
  rw [h3]
  refine ⟨rfl, rfl, hne, ?_⟩
  simp

/-- Witness for C4-amended at one signature that no response ever carries. -/
theorem c4_retry_bound_witness :
    (["s1"] : List String) ≠ [] ∧
    (∀ (rem : List String) (s : String), s ∈ (["s1"] : List String) →
      s ∉ returnedSignatures ((fun _ => [TxRec.dict (some "other")]) rem)) ∧
    (fetch_transactions_with_retries (fun _ => [TxRec.dict (some "other")])
      ["s1"] 3).attempts = 3 ∧
    (fetch_transactions_with_retries (fun _ => [TxRec.dict (some "other")])
      ["s1"] 3).missing = ["s1"] ∧
    (fetch_transactions_with_retries (fun _ => [TxRec.dict (some "other")])
      ["s1"] 3).collected =
      [TxRec.dict (some "other"), TxRec.dict (some "other"),
        TxRec.dict (some "other")] :=
  ⟨by decide,
    fun rem s hs => by
      rcases List.mem_singleton.mp hs with rfl
      show "s1" ∉ returnedSignatures [TxRec.dict (some "other")]
      decide,
    (c4_retry_bound (fun _ => [TxRec.dict (some "other")]) ["s1"] (by decide)
      (fun rem s hs => by
        rcases List.mem_singleton.mp hs with rfl
        show "s1" ∉ returnedSignatures [TxRec.dict (some "other")]
        decide)).1,
    (c4_retry_bound (fun _ => [TxRec.dict (some "other")]) ["s1"] (by decide)
      (fun rem s hs => by
        rcases List.mem_singleton.mp hs with rfl
        show "s1" ∉ returnedSignatures [TxRec.dict (some "other")]
        decide)).2.1,
    (c4_retry_bound (fun _ => [TxRec.dict (some "other")]) ["s1"] (by decide)
      (fun rem s hs => by
        rcases List.mem_singleton.mp hs with rfl
        show "s1" ∉ returnedSignatures [TxRec.dict (some "other")]
        decide)).2.2.2⟩

theorem length_filterMap_lt {α β : Type} (f : α → Option β) :
    ∀ {l : List α} {x : α}, x ∈ l → f x = none →
      (l.filterMap f).length < l.length := by
  intro l
  induction l with
  | nil =>
    intro x hx
    cases hx
  | cons a rest ih =>
    intro x hx hfx
    rcases hf : f a with _ | b
    · have hle := List.length_filterMap_le f rest
      simp only [List.filterMap_cons, hf, List.length_cons]
      omega
    · rcases List.mem_cons.mp hx with rfl | hx2
      · rw [hf] at hfx
        cases hfx
      · have := ih hx2 hfx
        simp only [List.filterMap_cons, hf, List.length_cons]
        omega

/-- C10 counterexample: a full-size raw page (length = limit = 1) whose only
entry is not a dict yields NO cursor (`None`), not "the last valid
signature" — the claim's cursor-presence assertion fails when every entry of
the full page is invalid. -/
theorem c10_counterexample :
    ([SigEntry.dict none] : List SigEntry).length = 1 ∧
    (∃ e ∈ ([SigEntry.dict none] : List SigEntry), entryValidSig e = none) ∧
    (fetch_signatures [SigEntry.dict none] 1).2 = none ∧
    (fetch_signatures [SigEntry.dict none] 1).1 = [] := by
  refine ⟨rfl, ⟨SigEntry.dict none, by decide, rfl⟩, rfl, rfl⟩

/-- C10 amended: if the raw page length equals the limit, some entry lacks a
valid (non-empty) signature, and at least one valid signature remains after
filtering, then the cursor is present and equals the last valid signature,
the filtered list is strictly shorter than the limit, the loop body stops,
and one more iteration of `fetch_all_transactions` returns without
requesting any page before that cursor. -/
theorem c10_invalid_entries_short_page (raw : List SigEntry) (limit : Nat)
    (txApi : List String → List TxRec) (maxTx : Option Nat) (acc : List TxRec)
    (hlen : raw.length = limit)
    (hbad : ∃ e ∈ raw, entryValidSig e = none)
    (hgood : (fetch_signatures raw limit).1 ≠ []) :
    (fetch_signatures raw limit).2 = (fetch_signatures raw limit).1.getLast? ∧
    (fetch_signatures raw limit).2 ≠ none ∧
    (fetch_signatures raw limit).1.length < limit ∧
    (processPage txApi limit maxTx acc raw).isStop ∧
    (∀ (sigApi : Option String → List SigEntry) (before : Option String)
        (fuel : Nat), sigApi before = raw →
      ∃ res, fetch_all_transactions sigApi txApi limit maxTx (fuel + 1)
        before acc = some res) := by
  have hshort : (fetch_signatures raw limit).1.length < limit := by
    rw [fetch_signatures_fst, ← hlen]
    obtain ⟨e, he, hfe⟩ := hbad
    exact length_filterMap_lt entryValidSig he hfe
  have hstop := processPage_stop_of_short txApi limit maxTx acc raw (Or.inl hshort)
  refine ⟨?_, ?_, hshort, hstop, ?_⟩
  · rw [fetch_signatures_snd, if_pos ⟨hlen, hgood⟩]
  · rw [fetch_signatures_snd, if_pos ⟨hlen, hgood⟩]
    exact getLast?_ne_none hgood
  · intro sigApi before fuel hsig
    rcases hd : processPage txApi limit maxTx acc raw with res | ⟨acc2, b⟩
    · refine ⟨res, ?_⟩
      rw [fetch_all_transactions, hsig, hd]
    · rw [hd] at hstop
      cases hstop

/-- Witness for C10-amended: limit 2, one valid and one invalid entry. -/
theorem c10_invalid_entries_short_page_witness :
    ([SigEntry.dict (some "x"), SigEntry.notDict] : List SigEntry).length = 2 ∧
    (∃ e ∈ ([SigEntry.dict (some "x"), SigEntry.notDict] : List SigEntry),
      entryValidSig e = none) ∧
    (fetch_signatures [SigEntry.dict (some "x"), SigEntry.notDict] 2).1 ≠ [] ∧
    (fetch_signatures [SigEntry.dict (some "x"), SigEntry.notDict] 2).2 =
      (fetch_signatures [SigEntry.dict (some "x"), SigEntry.notDict] 2).1.getLast? ∧
    (fetch_signatures [SigEntry.dict (some "x"), SigEntry.notDict] 2).1.length < 2 ∧
    (processPage (fun _ => []) 2 none []
      [SigEntry.dict (some "x"), SigEntry.notDict]).isStop :=
  ⟨rfl, ⟨SigEntry.notDict, by decide, rfl⟩, by decide,
    (c10_invalid_entries_short_page
      [SigEntry.dict (some "x"), SigEntry.notDict] 2 (fun _ => []) none []
      rfl ⟨SigEntry.notDict, by decide, rfl⟩ (by decide)).1,
    (c10_invalid_entries_short_page
      [SigEntry.dict (some "x"), SigEntry.notDict] 2 (fun _ => []) none []
      rfl ⟨SigEntry.notDict, by decide, rfl⟩ (by decide)).2.2.1,
    (c10_invalid_entries_short_page
      [SigEntry.dict (some "x"), SigEntry.notDict] 2 (fun _ => []) none []
      rfl ⟨SigEntry.notDict, by decide, rfl⟩ (by decide)).2.2.2.1⟩
